import Mathlib

/-!
Verification of the expression core of the complex-numworks repository.

The embedding covers src/complex.rs and src/function.rs: the complex number
library, the raw instruction set and its interpreter, the validator, the
optimizing compiler from `Function` to `FastFunction`, and the fast
interpreter.

Numeric model: the Rust code computes over f32. The embedding is polymorphic
over a field `F` together with a record `FloatOps F` holding the primitive
libm operations the code calls (expf, logf, sinf, cosf, sqrtf, fabsf,
atan2f), the constants PI and E, and the f32 comparison operators `==` and
`<` as boolean functions. Instantiating `F` with the rationals gives a
computable model used for concrete runs; instantiating with the reals and
the genuine transcendental functions gives the idealized exact-arithmetic
model. Floating-point rounding is abstracted away: every arithmetic
operation of the source is translated to the corresponding exact field
operation, in the same order.

Panics of the Rust code (unwrap on the capacity-32 heapless stack, unwrap
of pops on an empty stack, the unreachable arm of stage A of the compiler)
are modelled with Option: none means the Rust code panics.

The fast interpreter of the source uses a fixed array `[Complex; 32]` with
a manually moved stack pointer. It is modelled with a total store
`Int -> Complex F` plus the pointer; the function `fastAcc` computes, from
the instruction shapes alone, whether every index the Rust code would read
or write lies inside the array bounds `[0, 32)`. The index sequence is
determined by the instruction shapes only, never by the numeric values, so
this shape-level computation captures exactly the accesses of the source.
-/

namespace CNW

/-- Value of usize::MAX used by the validator of the source as the
end-of-program sentinel index (`op_index: usize::MAX`). The repository
targets the NumWorks calculator, a 32-bit platform. The claims only use
that this value differs from every real instruction index (at most 254). -/
def usizeMax : Nat := 2 ^ 32 - 1

/-- Model of the struct Complex of src/complex.rs: two components of the
numeric type. -/
structure Complex (F : Type) where
  real : F
  imag : F
deriving DecidableEq

/-- Record of the primitive f32 operations the ported code calls: the libm
functions, the two float constants, and the raw f32 comparisons `==`
(used by `Complex::is_real`) and `<` (used by `Log for f32`). -/
structure FloatOps (F : Type) where
  expf : F → F
  logf : F → F
  sinf : F → F
  cosf : F → F
  sqrtf : F → F
  fabsf : F → F
  atan2f : F → F → F
  pi : F
  e : F
  beq : F → F → Bool
  blt : F → F → Bool

variable {F : Type} [Field F]

/-- Complex::from_real. -/
def Complex.fromReal (x : F) : Complex F := ⟨x, 0⟩

/-- Complex::from_imag. -/
def Complex.fromImag (x : F) : Complex F := ⟨0, x⟩

/-- Complex::ZERO. -/
def Complex.ZERO : Complex F := ⟨0, 0⟩

/-- Complex::I. -/
def Complex.I : Complex F := ⟨0, 1⟩

/-- Conj for Complex. -/
def Complex.conj (a : Complex F) : Complex F := ⟨a.real, -a.imag⟩

/-- Neg for Complex. -/
instance : Neg (Complex F) := ⟨fun a => ⟨-a.real, -a.imag⟩⟩

/-- Add for Complex (componentwise; AddAssign of the source is the same
computation). -/
instance : Add (Complex F) := ⟨fun a b => ⟨a.real + b.real, a.imag + b.imag⟩⟩

/-- Sub for Complex. -/
instance : Sub (Complex F) := ⟨fun a b => ⟨a.real - b.real, a.imag - b.imag⟩⟩

/-- Mul for Complex. -/
instance : Mul (Complex F) :=
  ⟨fun a b => ⟨a.real * b.real - a.imag * b.imag, a.real * b.imag + a.imag * b.real⟩⟩

/-- Div for Complex: `self * Complex { rhs.real / (rhs.real^2 + rhs.imag^2),
-rhs.imag / (rhs.real^2 + rhs.imag^2) }`, exactly as written in the source.
Division by zero is not special-cased there; in the field model the total
field division (x / 0 = 0) stands in for the IEEE inf/NaN propagation. -/
instance : Div (Complex F) :=
  ⟨fun a b =>
    a * ⟨b.real / (b.real * b.real + b.imag * b.imag),
         -b.imag / (b.real * b.real + b.imag * b.imag)⟩⟩

/-- Add of Complex and a scalar (`Add<f32> for Complex`; AddAssign<f32> is
the same computation: only the real component moves). -/
def addF (a : Complex F) (r : F) : Complex F := ⟨a.real + r, a.imag⟩

/-- Sub of Complex and a scalar. -/
def subF (a : Complex F) (r : F) : Complex F := ⟨a.real - r, a.imag⟩

/-- Mul of Complex and a scalar (both components scaled). -/
def mulF (a : Complex F) (r : F) : Complex F := ⟨a.real * r, a.imag * r⟩

/-- Div of Complex by a scalar (both components divided). -/
def divF (a : Complex F) (r : F) : Complex F := ⟨a.real / r, a.imag / r⟩

/-- Complex::squared_modulus. -/
def squaredModulus (a : Complex F) : F := a.real * a.real + a.imag * a.imag

/-- Complex::modulus, via the primitive sqrtf. -/
def modulus (T : FloatOps F) (a : Complex F) : F := T.sqrtf (squaredModulus a)

/-- Complex::argument: `atan2f(self.imag, self.real)`. -/
def argument (T : FloatOps F) (a : Complex F) : F := T.atan2f a.imag a.real

/-- Complex::is_real: the f32 comparison `self.imag == 0.`. -/
def isReal (T : FloatOps F) (a : Complex F) : Bool := T.beq a.imag 0

/-- Exp for Complex: `(cos(imag) * exp(real), sin(imag) * exp(real))`. -/
def expC (T : FloatOps F) (a : Complex F) : Complex F :=
  ⟨T.cosf a.imag * T.expf a.real, T.sinf a.imag * T.expf a.real⟩

/-- Log for Complex: `(ln(modulus), argument)`. -/
def logC (T : FloatOps F) (a : Complex F) : Complex F :=
  ⟨T.logf (modulus T a), argument T a⟩

/-- Log for f32: a plain real gets imaginary part PI when negative, 0
otherwise, and real part `ln(|x|)`. -/
def fLog (T : FloatOps F) (x : F) : Complex F :=
  ⟨T.logf (T.fabsf x), if T.blt x 0 then T.pi else 0⟩

/-- Pow of Complex by a complex exponent: `(self.log() * exp).exp()`. -/
def powC (T : FloatOps F) (a e : Complex F) : Complex F := expC T (logC T a * e)

/-- Pow of Complex by an f32 exponent: `(self.log() * exp).exp()` where the
multiplication is the scalar one. -/
def powF (T : FloatOps F) (a : Complex F) (r : F) : Complex F :=
  expC T (mulF (logC T a) r)

/-- Trig::sin for Complex, with the exp(+-b) expansion of the source. -/
def sinC (T : FloatOps F) (a : Complex F) : Complex F :=
  ⟨T.sinf a.real * (T.expf (-a.imag) + T.expf a.imag) / 2,
   -T.cosf a.real * (T.expf (-a.imag) - T.expf a.imag) / 2⟩

/-- Trig::cos for Complex. -/
def cosC (T : FloatOps F) (a : Complex F) : Complex F :=
  ⟨T.cosf a.real * (T.expf (-a.imag) + T.expf a.imag) / 2,
   T.sinf a.real * (T.expf (-a.imag) - T.expf a.imag) / 2⟩

/-- Trig::tan for Complex, via the exponential form of the source. -/
def tanC (T : FloatOps F) (a : Complex F) : Complex F :=
  let eiz := expC T (Complex.I * a);
  let emiz := expC T (-Complex.I * a);
  -Complex.I * (eiz - emiz) / (eiz + emiz)

/-- InverseTrig::arcsin for Complex. -/
def arcsinC (T : FloatOps F) (a : Complex F) : Complex F :=
  -Complex.I * logC T (powF T (Complex.fromReal 1 - powC T a (Complex.fromReal 2)) (1 / 2)
    + Complex.I * a)

/-- InverseTrig::arccos for Complex (the formula of the source, which omits
the `z +` term of the textbook identity). -/
def arccosC (T : FloatOps F) (a : Complex F) : Complex F :=
  -Complex.I * logC T (Complex.I *
    powF T (Complex.fromReal 1 - powC T a (Complex.fromReal 2)) (1 / 2))

/-- InverseTrig::arctan for Complex. -/
def arctanC (T : FloatOps F) (a : Complex F) : Complex F :=
  divF (-Complex.I) 2 *
    logC T ((Complex.fromReal 1 + Complex.I * a) / (Complex.fromReal 1 - Complex.I * a))

/-- Model of enum MathInstruction of src/function.rs. A Number instruction
carries the f32 literal, modelled as an element of F. -/
inductive MathInstruction (F : Type) where
  | Z
  | ZConj
  | Number (x : F)
  | Conj
  | Imag
  | Pi
  | E
  | Add
  | Sub
  | Mul
  | Div
  | Pow
  | Sqrt
  | Exp
  | Ln
  | Log
  | Sin
  | Cos
  | Tan
  | Arcsin
  | Arccos
  | Arctan
deriving DecidableEq

/-- Model of enum FastMathInstr of src/function.rs. -/
inductive FastMathInstr (F : Type) where
  | Z
  | ZConj
  | Number (c : Complex F)
  | Conj
  | Add (c : Complex F)
  | Sub (c : Complex F)
  | Mul (c : Complex F)
  | Div (c : Complex F)
  | Pow (c : Complex F)
  | AddR (r : F)
  | SubR (r : F)
  | MulR (r : F)
  | DivR (r : F)
  | PowR (r : F)
  | AddZ
  | SubZ
  | MulZ
  | DivZ
  | PowZ
  | AddS
  | SubS
  | MulS
  | DivS
  | PowS
  | ExpZ
  | LnZ
  | Exp
  | Ln
  | Log (c : Complex F)
  | LogR (r : F)
  | LogZ
  | LogS
  | SinZ
  | CosZ
  | TanZ
  | Sin
  | Cos
  | Tan
  | ArcsinZ
  | ArccosZ
  | ArctanZ
  | Arcsin
  | Arccos
  | Arctan
deriving DecidableEq

/-- Push on the raw evaluation stack, a `Vec<Complex, 32>` in the source:
`stack.push(..).unwrap()` panics when the stack already holds 32 values. -/
def pushC (st : List (Complex F)) (c : Complex F) : Option (List (Complex F)) :=
  if st.length < 32 then some (c :: st) else none

/-- One instruction of `Evaluate for Function::eval`. Pops are
`stack.pop().unwrap()`: none models the panic on an empty stack. Binary
operators pop the right operand first. -/
def rawStep (T : FloatOps F) (z : Complex F) (st : List (Complex F)) :
    MathInstruction F → Option (List (Complex F))
  | .Z => pushC st z
  | .ZConj => pushC st (Complex.conj z)
  | .Number x => pushC st (Complex.fromReal x)
  | .Conj =>
    match st with
    | c :: rest => pushC rest (Complex.conj c)
    | [] => none
  | .Imag =>
    match st with
    | c :: rest => pushC rest (c * Complex.fromImag 1)
    | [] => none
  | .Pi => pushC st (Complex.fromReal T.pi)
  | .E => pushC st (Complex.fromReal T.e)
  | .Add =>
    match st with
    | rhs :: lhs :: rest => pushC rest (lhs + rhs)
    | _ => none
  | .Sub =>
    match st with
    | rhs :: lhs :: rest => pushC rest (lhs - rhs)
    | _ => none
  | .Mul =>
    match st with
    | rhs :: lhs :: rest => pushC rest (lhs * rhs)
    | _ => none
  | .Div =>
    match st with
    | rhs :: lhs :: rest => pushC rest (lhs / rhs)
    | _ => none
  | .Pow =>
    match st with
    | e :: c :: rest => pushC rest (powC T c e)
    | _ => none
  | .Sqrt =>
    match st with
    | c :: rest => pushC rest (powF T c (1 / 2))
    | [] => none
  | .Exp =>
    match st with
    | c :: rest => pushC rest (expC T c)
    | [] => none
  | .Ln =>
    match st with
    | c :: rest => pushC rest (logC T c)
    | [] => none
  | .Log =>
    match st with
    | base :: c :: rest => pushC rest (logC T c / logC T base)
    | _ => none
  | .Sin =>
    match st with
    | c :: rest => pushC rest (sinC T c)
    | [] => none
  | .Cos =>
    match st with
    | c :: rest => pushC rest (cosC T c)
    | [] => none
  | .Tan =>
    match st with
    | c :: rest => pushC rest (tanC T c)
    | [] => none
  | .Arcsin =>
    match st with
    | c :: rest => pushC rest (arcsinC T c)
    | [] => none
  | .Arccos =>
    match st with
    | c :: rest => pushC rest (arccosC T c)
    | [] => none
  | .Arctan =>
    match st with
    | c :: rest => pushC rest (arctanC T c)
    | [] => none

/-- The instruction loop of `Evaluate for Function::eval`. -/
def evalRawGo (T : FloatOps F) (z : Complex F) :
    List (Complex F) → List (MathInstruction F) → Option (List (Complex F))
  | st, [] => some st
  | st, i :: rest =>
    match rawStep T z st i with
    | some st2 => evalRawGo T z st2 rest
    | none => none

/-- Evaluate for Function: run the loop from the empty stack and return the
final `stack.pop().unwrap()`. -/
def evalRaw (T : FloatOps F) (p : List (MathInstruction F)) (z : Complex F) :
    Option (Complex F) :=
  match evalRawGo T z [] p with
  | some (c :: _) => some c
  | _ => none

/-- The loop body and final check of `Validate for Function::validate`,
carrying the running isize stack_size (an Int) and the enumerate index.
Producers add one; unary operators require a positive stack and change
nothing (a unary operator on an empty stack falls to the catch-all arm of
the source and errors with its own index); binary operators subtract one.
After each instruction a stack size of zero or below errors with the index
of that instruction. When the scan ends, a final size other than one errors
with the usize::MAX sentinel. -/
def validateAux : Int → Nat → List (MathInstruction F) → Except Nat Unit
  | stackSize, _, [] =>
    if stackSize ≠ 1 then .error usizeMax else .ok ()
  | stackSize, opIndex, instr :: rest =>
    match
      (match instr with
       | .Number _ | .Pi | .E | .Z | .ZConj => Except.ok (stackSize + 1)
       | .Imag | .Conj | .Sqrt | .Exp | .Ln
       | .Sin | .Cos | .Tan | .Arcsin | .Arccos | .Arctan =>
         if stackSize > 0 then Except.ok stackSize else Except.error opIndex
       | .Add | .Sub | .Mul | .Div | .Pow | .Log =>
         Except.ok (stackSize - 1) : Except Nat Int) with
    | .error i => .error i
    | .ok s2 => if s2 ≤ 0 then .error opIndex else validateAux s2 (opIndex + 1) rest

/-- Validate for Function. -/
def validate (p : List (MathInstruction F)) : Except Nat Unit := validateAux 0 0 p

/-- Store of the fast interpreter: the source uses `[Complex; 32]` indexed
by a usize stack pointer. The model uses a total store over Int so that the
value semantics is defined everywhere; `fastAcc` below decides separately
whether the source stays inside the array. -/
def Store (F : Type) : Type := Int → Complex F

/-- Write one cell of the store. -/
def wr (σ : Store F) (i : Int) (v : Complex F) : Store F :=
  fun j => if j = i then v else σ j

/-- One instruction of `Evaluate for FastFunction::eval`, acting on the
store and the stack pointer. Pushing pre-increments the pointer then writes;
in-place operators rewrite the cell at the pointer; the S forms decrement
the pointer then combine the two cells above it. -/
def fastStep (T : FloatOps F) (z : Complex F) :
    FastMathInstr F → Store F × Int → Store F × Int
  | .Z, (σ, sp) => (wr σ (sp + 1) z, sp + 1)
  | .ZConj, (σ, sp) => (wr σ (sp + 1) (Complex.conj z), sp + 1)
  | .Number c, (σ, sp) => (wr σ (sp + 1) c, sp + 1)
  | .Conj, (σ, sp) => (wr σ sp (Complex.conj (σ sp)), sp)
  | .Add c, (σ, sp) => (wr σ sp (σ sp + c), sp)
  | .Sub c, (σ, sp) => (wr σ sp (σ sp - c), sp)
  | .Mul c, (σ, sp) => (wr σ sp (σ sp * c), sp)
  | .Div c, (σ, sp) => (wr σ sp (σ sp / c), sp)
  | .Pow c, (σ, sp) => (wr σ sp (powC T (σ sp) c), sp)
  | .AddR r, (σ, sp) => (wr σ sp (addF (σ sp) r), sp)
  | .SubR r, (σ, sp) => (wr σ sp (subF (σ sp) r), sp)
  | .MulR r, (σ, sp) => (wr σ sp (mulF (σ sp) r), sp)
  | .DivR r, (σ, sp) => (wr σ sp (divF (σ sp) r), sp)
  | .PowR r, (σ, sp) => (wr σ sp (powF T (σ sp) r), sp)
  | .AddZ, (σ, sp) => (wr σ sp (σ sp + z), sp)
  | .SubZ, (σ, sp) => (wr σ sp (σ sp - z), sp)
  | .MulZ, (σ, sp) => (wr σ sp (σ sp * z), sp)
  | .DivZ, (σ, sp) => (wr σ sp (σ sp / z), sp)
  | .PowZ, (σ, sp) => (wr σ sp (powC T (σ sp) z), sp)
  | .AddS, (σ, sp) => (wr σ (sp - 1) (σ (sp - 1) + σ sp), sp - 1)
  | .SubS, (σ, sp) => (wr σ (sp - 1) (σ (sp - 1) - σ sp), sp - 1)
  | .MulS, (σ, sp) => (wr σ (sp - 1) (σ (sp - 1) * σ sp), sp - 1)
  | .DivS, (σ, sp) => (wr σ (sp - 1) (σ (sp - 1) / σ sp), sp - 1)
  | .PowS, (σ, sp) => (wr σ (sp - 1) (powC T (σ (sp - 1)) (σ sp)), sp - 1)
  | .ExpZ, (σ, sp) => (wr σ (sp + 1) (expC T z), sp + 1)
  | .LnZ, (σ, sp) => (wr σ (sp + 1) (logC T z), sp + 1)
  | .Exp, (σ, sp) => (wr σ sp (expC T (σ sp)), sp)
  | .Ln, (σ, sp) => (wr σ sp (logC T (σ sp)), sp)
  | .Log b, (σ, sp) => (wr σ sp (logC T (σ sp) / b), sp)
  | .LogR b, (σ, sp) => (wr σ sp (divF (logC T (σ sp)) b), sp)
  | .LogZ, (σ, sp) => (wr σ sp (logC T (σ sp) / logC T z), sp)
  | .LogS, (σ, sp) => (wr σ (sp - 1) (logC T (σ (sp - 1)) / logC T (σ sp)), sp - 1)
  | .SinZ, (σ, sp) => (wr σ (sp + 1) (sinC T z), sp + 1)
  | .CosZ, (σ, sp) => (wr σ (sp + 1) (cosC T z), sp + 1)
  | .TanZ, (σ, sp) => (wr σ (sp + 1) (tanC T z), sp + 1)
  | .Sin, (σ, sp) => (wr σ sp (sinC T (σ sp)), sp)
  | .Cos, (σ, sp) => (wr σ sp (cosC T (σ sp)), sp)
  | .Tan, (σ, sp) => (wr σ sp (tanC T (σ sp)), sp)
  | .ArcsinZ, (σ, sp) => (wr σ (sp + 1) (arcsinC T z), sp + 1)
  | .ArccosZ, (σ, sp) => (wr σ (sp + 1) (arccosC T z), sp + 1)
  | .ArctanZ, (σ, sp) => (wr σ (sp + 1) (arctanC T z), sp + 1)
  | .Arcsin, (σ, sp) => (wr σ sp (arcsinC T (σ sp)), sp)
  | .Arccos, (σ, sp) => (wr σ sp (arccosC T (σ sp)), sp)
  | .Arctan, (σ, sp) => (wr σ sp (arctanC T (σ sp)), sp)

/-- The instruction loop of `Evaluate for FastFunction::eval`. -/
def runF (T : FloatOps F) (z : Complex F) :
    List (FastMathInstr F) → Store F × Int → Store F × Int
  | [], s => s
  | i :: rest, s => runF T z rest (fastStep T z i s)

/-- Initial contents of the fast stack: `[Complex::ZERO; 32]`. -/
def initStore : Store F := fun _ => Complex.ZERO

/-- Evaluate for FastFunction: run from pointer 0 and return `stack[1]`. -/
def evalFast (T : FloatOps F) (l : List (FastMathInstr F)) (z : Complex F) : Complex F :=
  (runF T z l (initStore, 0)).1 1

/-- Access shape of a fast instruction: pushes move the pointer up and write
above it, in-place forms rewrite the cell at the pointer, the S forms move
the pointer down and touch the two cells above the new pointer. -/
inductive Shape where
  | push
  | inplace
  | stk
deriving DecidableEq

/-- Shape of each fast instruction, read off the arms of
`Evaluate for FastFunction::eval`. -/
def shapeOf : FastMathInstr F → Shape
  | .Z | .ZConj | .Number _ => .push
  | .ExpZ | .LnZ | .SinZ | .CosZ | .TanZ => .push
  | .ArcsinZ | .ArccosZ | .ArctanZ => .push
  | .AddS | .SubS | .MulS | .DivS | .PowS | .LogS => .stk
  | _ => .inplace

/-- Pointer move of a fast instruction. -/
def fastDelta (i : FastMathInstr F) : Int :=
  match shapeOf i with
  | .push => 1
  | .inplace => 0
  | .stk => -1

/-- Whether an index lies inside the 32-slot array of the fast stack. -/
def inb (i : Int) : Bool := decide (0 ≤ i ∧ i < 32)

/-- Whether, running from pointer sp, every index the fast interpreter
touches lies in [0, 32). A push touches sp + 1; an in-place form touches
sp; an S form touches sp - 1 and sp. A negative index models the usize
underflow of `stack_pointer -= 1` at pointer 0, which in Rust wraps and
then indexes far outside the array. -/
def fastAcc : Int → List (FastMathInstr F) → Bool
  | _, [] => true
  | sp, i :: rest =>
    match shapeOf i with
    | .push => inb (sp + 1) && fastAcc (sp + 1) rest
    | .inplace => inb sp && fastAcc sp rest
    | .stk => (inb (sp - 1) && inb sp) && fastAcc (sp - 1) rest

/-- All accesses of a whole fast program run from pointer 0, including the
final read of `stack[1]`. -/
def fastAccAll (l : List (FastMathInstr F)) : Bool :=
  fastAcc 0 l && inb 1

/-- Discipline of a fast program from a given pointer: pushes never lift the
pointer past 31, in-place forms find at least one value, S forms at least
two. Compilation of a validated raw program with running size at most 31
establishes this invariant, and it implies that all accesses are in
bounds. -/
def profOk : Int → List (FastMathInstr F) → Bool
  | _, [] => true
  | sp, i :: rest =>
    match shapeOf i with
    | .push => decide (sp + 1 ≤ 31) && profOk (sp + 1) rest
    | .inplace => decide (1 ≤ sp) && profOk sp rest
    | .stk => decide (2 ≤ sp) && profOk (sp - 1) rest

/-- Final pointer after a fast program runs from a given pointer. -/
def finSz : Int → List (FastMathInstr F) → Int
  | sp, [] => sp
  | sp, i :: rest => finSz (sp + fastDelta i) rest

/-- Stack effect of a raw instruction, as counted by the validator:
producers one, unary operators zero, binary operators minus one. -/
def rawDelta : MathInstruction F → Int
  | .Number _ | .Pi | .E | .Z | .ZConj => 1
  | .Imag | .Conj | .Sqrt | .Exp | .Ln
  | .Sin | .Cos | .Tan | .Arcsin | .Arccos | .Arctan => 0
  | .Add | .Sub | .Mul | .Div | .Pow | .Log => -1

/-- Whether the running stack size of a raw program, started at s, stays at
most 31 after every instruction. This is the depth bound under which the
32-slot fast stack with its pre-incremented pointer suffices. -/
def rawMaxOk : Int → List (MathInstruction F) → Bool
  | _, [] => true
  | s, i :: rest =>
    decide (s + rawDelta i ≤ 31) && rawMaxOk (s + rawDelta i) rest

/-- Index of the first instruction at which the running stack size, started
at s, drops to zero or below. This is the declarative description of the
error position of the validator used by the characterization theorem. -/
def firstDropFrom (s : Int) : List (MathInstruction F) → Option Nat
  | [] => none
  | i :: rest =>
    if s + rawDelta i ≤ 0 then some 0
    else (firstDropFrom (s + rawDelta i) rest).map (· + 1)

/-- Net stack effect of a whole raw program. -/
def rawTotal (p : List (MathInstruction F)) : Int := (p.map rawDelta).sum

/-- Stage A of `From<Function> for FastFunction`: the one-to-one lowering,
with the single fusion of a Number immediately followed by Imag into a
purely imaginary literal. A bare Imag hits the `unreachable!()` arm of the
source: none models that panic. -/
def stageA (T : FloatOps F) : List (MathInstruction F) → Option (List (FastMathInstr F))
  | [] => some []
  | .Number x :: .Imag :: rest =>
    (stageA T rest).map (FastMathInstr.Number (Complex.fromImag x) :: ·)
  | .Number x :: rest =>
    (stageA T rest).map (FastMathInstr.Number (Complex.fromReal x) :: ·)
  | .Imag :: _ => none
  | .Z :: rest => (stageA T rest).map (FastMathInstr.Z :: ·)
  | .ZConj :: rest => (stageA T rest).map (FastMathInstr.ZConj :: ·)
  | .Conj :: rest => (stageA T rest).map (FastMathInstr.Conj :: ·)
  | .Pi :: rest =>
    (stageA T rest).map (FastMathInstr.Number (Complex.fromReal T.pi) :: ·)
  | .E :: rest =>
    (stageA T rest).map (FastMathInstr.Number (Complex.fromReal T.e) :: ·)
  | .Add :: rest => (stageA T rest).map (FastMathInstr.AddS :: ·)
  | .Sub :: rest => (stageA T rest).map (FastMathInstr.SubS :: ·)
  | .Mul :: rest => (stageA T rest).map (FastMathInstr.MulS :: ·)
  | .Div :: rest => (stageA T rest).map (FastMathInstr.DivS :: ·)
  | .Pow :: rest => (stageA T rest).map (FastMathInstr.PowS :: ·)
  | .Sqrt :: rest => (stageA T rest).map (FastMathInstr.PowR (1 / 2) :: ·)
  | .Exp :: rest => (stageA T rest).map (FastMathInstr.Exp :: ·)
  | .Ln :: rest => (stageA T rest).map (FastMathInstr.Ln :: ·)
  | .Log :: rest => (stageA T rest).map (FastMathInstr.LogS :: ·)
  | .Sin :: rest => (stageA T rest).map (FastMathInstr.Sin :: ·)
  | .Cos :: rest => (stageA T rest).map (FastMathInstr.Cos :: ·)
  | .Tan :: rest => (stageA T rest).map (FastMathInstr.Tan :: ·)
  | .Arcsin :: rest => (stageA T rest).map (FastMathInstr.Arcsin :: ·)
  | .Arccos :: rest => (stageA T rest).map (FastMathInstr.Arccos :: ·)
  | .Arctan :: rest => (stageA T rest).map (FastMathInstr.Arctan :: ·)

/-- The inner match of the operand-fusion pass for a Z producer: which
following instructions fuse, and into what. -/
def fuseZ : FastMathInstr F → Option (FastMathInstr F)
  | .AddS => some .AddZ
  | .SubS => some .SubZ
  | .MulS => some .MulZ
  | .DivS => some .DivZ
  | .PowS => some .PowZ
  | .Exp => some .ExpZ
  | .Ln => some .LnZ
  | .LogS => some .LogZ
  | .Sin => some .SinZ
  | .Cos => some .CosZ
  | .Tan => some .TanZ
  | .Arcsin => some .ArcsinZ
  | .Arccos => some .ArccosZ
  | .Arctan => some .ArctanZ
  | _ => none

/-- The inner match of the operand-fusion pass for a Number producer. The
fusion with LogS stores the logarithm of the base, computed at compile
time. -/
def fuseN (T : FloatOps F) (x : Complex F) : FastMathInstr F → Option (FastMathInstr F)
  | .AddS => some (.Add x)
  | .SubS => some (.Sub x)
  | .MulS => some (.Mul x)
  | .DivS => some (.Div x)
  | .PowS => some (.Pow x)
  | .LogS => some (.Log (logC T x))
  | _ => none

/-- Head dispatch of the operand-fusion pass: only a Z or a Number looks at
its successor. -/
def fusePair (T : FloatOps F) (a b : FastMathInstr F) : Option (FastMathInstr F) :=
  match a with
  | .Z => fuseZ b
  | .Number x => fuseN T x b
  | _ => none

/-- The inner match of the constant-folding pass: a Number followed by one
of these operators is computed at compile time. -/
def foldN (T : FloatOps F) (c : Complex F) : FastMathInstr F → Option (FastMathInstr F)
  | .Conj => some (.Number (Complex.conj c))
  | .Add c2 => some (.Number (c + c2))
  | .Sub c2 => some (.Number (c - c2))
  | .Mul c2 => some (.Number (c * c2))
  | .Div c2 => some (.Number (c / c2))
  | .Pow c2 => some (.Number (powC T c c2))
  | .Exp => some (.Number (expC T c))
  | .Ln => some (.Number (logC T c))
  | .Log b => some (.Number (logC T c / b))
  | .Sin => some (.Number (sinC T c))
  | .Cos => some (.Number (cosC T c))
  | .Tan => some (.Number (tanC T c))
  | .Arcsin => some (.Number (arcsinC T c))
  | .Arccos => some (.Number (arccosC T c))
  | .Arctan => some (.Number (arctanC T c))
  | _ => none

/-- Head dispatch of the constant-folding pass. -/
def foldPair (T : FloatOps F) (a b : FastMathInstr F) : Option (FastMathInstr F) :=
  match a with
  | .Number c => foldN T c b
  | _ => none

/-- Shared loop shape of the two peephole passes of the source: walk the
program with one instruction of lookahead; when the current instruction and
its successor rewrite to a single instruction, emit it and continue after
the pair, otherwise emit the current instruction and continue at the
successor. -/
def peephole (pair : FastMathInstr F → FastMathInstr F → Option (FastMathInstr F)) :
    List (FastMathInstr F) → List (FastMathInstr F)
  | [] => []
  | [i] => [i]
  | a :: b :: rest =>
    match pair a b with
    | some f => f :: peephole pair rest
    | none => a :: peephole pair (b :: rest)

/-- The operand-fusion pass (Z and Number operation simplification). -/
def fuse (T : FloatOps F) (l : List (FastMathInstr F)) : List (FastMathInstr F) :=
  peephole (fusePair T) l

/-- The constant-folding pass (compute number times number operations). -/
def precompute (T : FloatOps F) (l : List (FastMathInstr F)) : List (FastMathInstr F) :=
  peephole (foldPair T) l

/-- One arm of the final real-number specialization: a fused operand whose
imaginary component compares equal to zero is narrowed to the real form. -/
def spec1 (T : FloatOps F) : FastMathInstr F → FastMathInstr F
  | .Add c => if isReal T c then .AddR c.real else .Add c
  | .Sub c => if isReal T c then .SubR c.real else .Sub c
  | .Mul c => if isReal T c then .MulR c.real else .Mul c
  | .Div c => if isReal T c then .DivR c.real else .Div c
  | .Pow c => if isReal T c then .PowR c.real else .Pow c
  | .Log c => if isReal T c then .LogR c.real else .Log c
  | i => i

/-- The final real-number specialization pass (the iter_mut loop). -/
def specialize (T : FloatOps F) (l : List (FastMathInstr F)) : List (FastMathInstr F) :=
  l.map (spec1 T)

/-- The fixpoint loop of the compiler with an explicit iteration budget:
run fusion then folding, repeat while the length shrank. The while loop of
the source carries no budget; `loopGo` is called with budget length + 1,
and the fuel-sufficiency theorem shows the loop always exits within that
many iterations, so the budgeted rendering computes the same result. -/
def loopGo (T : FloatOps F) : Nat → List (FastMathInstr F) → List (FastMathInstr F)
  | 0, l => l
  | n + 1, l =>
    if (precompute T (fuse T l)).length < l.length then
      loopGo T n (precompute T (fuse T l))
    else
      precompute T (fuse T l)

/-- Stage B of the compiler: the fixpoint loop. -/
def stageB (T : FloatOps F) (l : List (FastMathInstr F)) : List (FastMathInstr F) :=
  loopGo T (l.length + 1) l

/-- The fixpoint loop with explicit fuel and failure: none means the fuel
ran out before the loop exited. The termination theorem shows fuel
length + 1 never runs out. -/
def stageBFuel (T : FloatOps F) : Nat → List (FastMathInstr F) → Option (List (FastMathInstr F))
  | 0, _ => none
  | n + 1, l =>
    if (precompute T (fuse T l)).length < l.length then
      stageBFuel T n (precompute T (fuse T l))
    else
      some (precompute T (fuse T l))

/-- From Function for FastFunction: stage A, the fixpoint loop, then the
real-number specialization. none models the panic of stage A on a bare
Imag instruction. -/
def compile (T : FloatOps F) (p : List (MathInstruction F)) :
    Option (List (FastMathInstr F)) :=
  (stageA T p).map fun l => specialize T (stageB T l)

/-- Value written by a push-shaped fast instruction (ZERO on the other
shapes, which never reach it). -/
def pushVal (T : FloatOps F) (z : Complex F) : FastMathInstr F → Complex F
  | .Z => z
  | .ZConj => Complex.conj z
  | .Number c => c
  | .ExpZ => expC T z
  | .LnZ => logC T z
  | .SinZ => sinC T z
  | .CosZ => cosC T z
  | .TanZ => tanC T z
  | .ArcsinZ => arcsinC T z
  | .ArccosZ => arccosC T z
  | .ArctanZ => arctanC T z
  | _ => Complex.ZERO

/-- Rewrite performed on the cell at the pointer by an in-place fast
instruction (the identity on the other shapes). -/
def inplaceVal (T : FloatOps F) (z : Complex F) : FastMathInstr F → Complex F → Complex F
  | .Conj, w => Complex.conj w
  | .Add c, w => w + c
  | .Sub c, w => w - c
  | .Mul c, w => w * c
  | .Div c, w => w / c
  | .Pow c, w => powC T w c
  | .AddR r, w => addF w r
  | .SubR r, w => subF w r
  | .MulR r, w => mulF w r
  | .DivR r, w => divF w r
  | .PowR r, w => powF T w r
  | .AddZ, w => w + z
  | .SubZ, w => w - z
  | .MulZ, w => w * z
  | .DivZ, w => w / z
  | .PowZ, w => powC T w z
  | .Exp, w => expC T w
  | .Ln, w => logC T w
  | .Log b, w => logC T w / b
  | .LogR b, w => divF (logC T w) b
  | .LogZ, w => logC T w / logC T z
  | .Sin, w => sinC T w
  | .Cos, w => cosC T w
  | .Tan, w => tanC T w
  | .Arcsin, w => arcsinC T w
  | .Arccos, w => arccosC T w
  | .Arctan, w => arctanC T w
  | _, w => w

/-- Combination computed by an S-shaped fast instruction from the two top
cells, the deeper one first. -/
def stkVal (T : FloatOps F) : FastMathInstr F → Complex F → Complex F → Complex F
  | .AddS, a, b => a + b
  | .SubS, a, b => a - b
  | .MulS, a, b => a * b
  | .DivS, a, b => a / b
  | .PowS, a, b => powC T a b
  | .LogS, a, b => logC T a / logC T b
  | _, a, _ => a

/-- Relation between the raw list stack and the fast store: the pointer
equals the list length and cell length - k holds the k-th element from the
top. -/
def Rel (st : List (Complex F)) (σ : Store F) : Prop :=
  ∀ k : Nat, (h : k < st.length) → σ ((st.length : Int) - (k : Int)) = st.get ⟨k, h⟩

/-- Agreement of two stores on every cell at or below a pointer. -/
def AgreeLE (sp : Int) (σ τ : Store F) : Prop :=
  ∀ i : Int, i ≤ sp → σ i = τ i

/-- The prime order of the concrete computable field used to run the
embedding on explicit programs. -/
instance fact_prime_101 : Fact (Nat.Prime 101) := ⟨by norm_num⟩

/-- Concrete computable model: exact field arithmetic in the field with 101
elements, whose operations the kernel evaluates. Every concrete program run
in this model exercises only exact small-integer arithmetic, which f32
performs exactly as well; the transcendental primitives are inert
placeholders, and no statement settled in this model depends on their
values or on the order. -/
def zOps : FloatOps (ZMod 101) :=
  ⟨id, id, id, id, id, id, fun _ _ => 0, 3, 2,
   fun a b => decide (a = b), fun _ _ => false⟩

/-- A validated program whose running stack size reaches 33: thirty-three
pushes of the input followed by thirty-two multiplications. -/
def progDeep33 : List (MathInstruction (ZMod 101)) :=
  List.replicate 33 MathInstruction.Z ++ List.replicate 32 MathInstruction.Mul

/-- A validated program whose running stack size reaches exactly 32, built
so that no fusion applies: the conjugations separate every push from the
following multiplications, so the compiled fast program still reaches
pointer 32 while the raw interpreter (capacity 32) evaluates it fine. -/
def progDeep32 : List (MathInstruction (ZMod 101)) :=
  MathInstruction.Z ::
    ((List.replicate 31 [MathInstruction.Z, MathInstruction.Conj]).flatten ++
      List.replicate 31 MathInstruction.Mul)

end CNW

/-- Idealized real-number model: exact real arithmetic with the genuine
transcendental functions in place of their f32 approximations. atan2f is
the argument of the Mathlib complex number x + i y, the principal value in
(-pi, pi], which is the convention of libm atan2f. The comparisons are the
classical ones, so this model is noncomputable; every concrete statement
over it is settled by simp and the Mathlib lemmas about the real
functions. -/
noncomputable def realOps : CNW.FloatOps ℝ :=
  ⟨Real.exp, Real.log, Real.sin, Real.cos, Real.sqrt, fun x => |x|,
   fun y x => Complex.arg ⟨x, y⟩, Real.pi, Real.exp 1,
   fun a b => @decide (a = b) (Classical.propDecidable _),
   fun a b => @decide (a < b) (Classical.propDecidable _)⟩

namespace CNW

variable {F : Type} [Field F]

theorem Complex.ext2 {a b : Complex F} (hr : a.real = b.real) (hi : a.imag = b.imag) :
    a = b := by
  cases a; cases b; simp_all

@[simp] theorem mk_real (x y : F) : (Complex.mk x y).real = x := rfl

@[simp] theorem mk_imag (x y : F) : (Complex.mk x y).imag = y := rfl

theorem add_def (a b : Complex F) : a + b = ⟨a.real + b.real, a.imag + b.imag⟩ := rfl

theorem sub_def (a b : Complex F) : a - b = ⟨a.real - b.real, a.imag - b.imag⟩ := rfl

theorem mul_def (a b : Complex F) :
    a * b = ⟨a.real * b.real - a.imag * b.imag, a.real * b.imag + a.imag * b.real⟩ := rfl

theorem div_def (a b : Complex F) :
    a / b = a * ⟨b.real / (b.real * b.real + b.imag * b.imag),
      -b.imag / (b.real * b.real + b.imag * b.imag)⟩ := rfl

theorem scale_aux (a r : F) : a * (r / (r * r)) = a / r := by
  rcases eq_or_ne r 0 with h | h
  · simp [h]
  · field_simp

theorem mul_real_operand (a : Complex F) (r : F) : a * ⟨r, 0⟩ = mulF a r := by
  apply Complex.ext2 <;> simp [mul_def, mulF]

theorem add_real_operand (a : Complex F) (r : F) : a + ⟨r, 0⟩ = addF a r := by
  apply Complex.ext2 <;> simp [add_def, addF]

theorem sub_real_operand (a : Complex F) (r : F) : a - ⟨r, 0⟩ = subF a r := by
  apply Complex.ext2 <;> simp [sub_def, subF]

theorem div_real_operand (a : Complex F) (r : F) : a / ⟨r, 0⟩ = divF a r := by
  have h : a / (⟨r, 0⟩ : Complex F) = a * ⟨r / (r * r), 0⟩ := by
    rw [div_def]; apply Complex.ext2 <;> simp
  rw [h, mul_real_operand]
  apply Complex.ext2 <;> simp only [mulF, divF, mk_real, mk_imag, scale_aux]

theorem pow_real_operand (T : FloatOps F) (a : Complex F) (r : F) :
    powC T a ⟨r, 0⟩ = powF T a r := by
  rw [powC, powF, mul_real_operand]

theorem fromReal_mul_imag_one (x : F) :
    Complex.fromReal x * Complex.fromImag 1 = Complex.fromImag x := by
  apply Complex.ext2 <;> simp [Complex.fromReal, Complex.fromImag, mul_def]

theorem mul_imag_one (z : Complex F) : z * Complex.fromImag 1 = Complex.I * z := by
  apply Complex.ext2 <;> simp [Complex.fromImag, Complex.I, mul_def]

@[simp] theorem wr_same (σ : Store F) (i : Int) (v : Complex F) : wr σ i v i = v := by
  simp [wr]

theorem wr_other (σ : Store F) {i j : Int} (v : Complex F) (h : j ≠ i) :
    wr σ i v j = σ j := by
  simp [wr, h]

theorem wr_absorb (σ : Store F) (i : Int) (a b : Complex F) :
    wr (wr σ i a) i b = wr σ i b := by
  funext j; by_cases h : j = i <;> simp [wr, h]

theorem fastStep_spec (T : FloatOps F) (z : Complex F) (i : FastMathInstr F)
    (σ : Store F) (sp : Int) :
    fastStep T z i (σ, sp) =
      match shapeOf i with
      | .push => (wr σ (sp + 1) (pushVal T z i), sp + 1)
      | .inplace => (wr σ sp (inplaceVal T z i (σ sp)), sp)
      | .stk => (wr σ (sp - 1) (stkVal T i (σ (sp - 1)) (σ sp)), sp - 1) := by
  cases i <;> rfl

theorem spec1_shape (T : FloatOps F) (i : FastMathInstr F) :
    shapeOf (spec1 T i) = shapeOf i := by
  cases i <;> first
  | rfl
  | (simp only [spec1]; split <;> rfl)

theorem spec1_step (T : FloatOps F) (z : Complex F)
    (hbeq : ∀ a b : F, T.beq a b = true → a = b) (i : FastMathInstr F)
    (s : Store F × Int) : fastStep T z (spec1 T i) s = fastStep T z i s := by
  obtain ⟨σ, sp⟩ := s
  have hreal : ∀ c : Complex F, isReal T c = true → c = ⟨c.real, 0⟩ := by
    intro c hc
    exact Complex.ext2 rfl (hbeq _ _ hc)
  cases i <;> try rfl
  case Add c =>
    simp only [spec1]
    by_cases h : isReal T c = true
    · rw [if_pos h]
      have := hreal c h
      simp only [fastStep]
      rw [show σ sp + c = addF (σ sp) c.real from by rw [this, add_real_operand]]
    · rw [if_neg h]
  case Sub c =>
    simp only [spec1]
    by_cases h : isReal T c = true
    · rw [if_pos h]
      have := hreal c h
      simp only [fastStep]
      rw [show σ sp - c = subF (σ sp) c.real from by rw [this, sub_real_operand]]
    · rw [if_neg h]
  case Mul c =>
    simp only [spec1]
    by_cases h : isReal T c = true
    · rw [if_pos h]
      have := hreal c h
      simp only [fastStep]
      rw [show σ sp * c = mulF (σ sp) c.real from by rw [this, mul_real_operand]]
    · rw [if_neg h]
  case Div c =>
    simp only [spec1]
    by_cases h : isReal T c = true
    · rw [if_pos h]
      have := hreal c h
      simp only [fastStep]
      rw [show σ sp / c = divF (σ sp) c.real from by rw [this, div_real_operand]]
    · rw [if_neg h]
  case Pow c =>
    simp only [spec1]
    by_cases h : isReal T c = true
    · rw [if_pos h]
      have := hreal c h
      simp only [fastStep]
      rw [show powC T (σ sp) c = powF T (σ sp) c.real from by
        rw [this, pow_real_operand]]
    · rw [if_neg h]
  case Log c =>
    simp only [spec1]
    by_cases h : isReal T c = true
    · rw [if_pos h]
      have := hreal c h
      simp only [fastStep]
      rw [show logC T (σ sp) / c = divF (logC T (σ sp)) c.real from by
        rw [this, div_real_operand]]
    · rw [if_neg h]

theorem agreeLE_refl (sp : Int) (σ : Store F) : AgreeLE sp σ σ := fun _ _ => rfl

theorem agreeLE_trans {sp : Int} {σ τ υ : Store F} (h1 : AgreeLE sp σ τ)
    (h2 : AgreeLE sp τ υ) : AgreeLE sp σ υ :=
  fun i hi => (h1 i hi).trans (h2 i hi)

theorem fastStep_cong (T : FloatOps F) (z : Complex F) (i : FastMathInstr F)
    {σ τ σ1 τ1 : Store F} {sp sp1 sp2 : Int} (h : AgreeLE sp σ τ)
    (e1 : fastStep T z i (σ, sp) = (σ1, sp1))
    (e2 : fastStep T z i (τ, sp) = (τ1, sp2)) :
    sp1 = sp2 ∧ AgreeLE sp1 σ1 τ1 := by
  cases hs : shapeOf i with
  | push =>
    rw [fastStep_spec, hs] at e1 e2
    injection e1 with ea eb
    injection e2 with ec ed
    subst ea; subst ec; subst eb; subst ed
    refine ⟨rfl, ?_⟩
    intro j hj
    by_cases hji : j = sp + 1
    · subst hji; simp
    · rw [wr_other _ _ hji, wr_other _ _ hji]
      exact h j (by omega)
  | inplace =>
    rw [fastStep_spec, hs] at e1 e2
    injection e1 with ea eb
    injection e2 with ec ed
    subst ea; subst ec; subst eb; subst ed
    refine ⟨rfl, ?_⟩
    have hsp := h sp le_rfl
    intro j hj
    by_cases hji : j = sp
    · subst hji; simp [hsp]
    · rw [wr_other _ _ hji, wr_other _ _ hji]
      exact h j hj
  | stk =>
    rw [fastStep_spec, hs] at e1 e2
    injection e1 with ea eb
    injection e2 with ec ed
    subst ea; subst ec; subst eb; subst ed
    refine ⟨rfl, ?_⟩
    have h1 := h sp le_rfl
    have h2 := h (sp - 1) (by omega)
    intro j hj
    by_cases hji : j = sp - 1
    · subst hji; simp [h1, h2]
    · rw [wr_other _ _ hji, wr_other _ _ hji]
      exact h j (by omega)

theorem runF_cong (T : FloatOps F) (z : Complex F) :
    ∀ (l : List (FastMathInstr F)) {σ τ : Store F} {sp : Int}, AgreeLE sp σ τ →
      (runF T z l (σ, sp)).2 = (runF T z l (τ, sp)).2 ∧
        AgreeLE (runF T z l (σ, sp)).2 (runF T z l (σ, sp)).1 (runF T z l (τ, sp)).1
  | [], _, _, _, h => ⟨rfl, h⟩
  | i :: rest, σ, τ, sp, h => by
    rcases e1 : fastStep T z i (σ, sp) with ⟨σ1, sp1⟩
    rcases e2 : fastStep T z i (τ, sp) with ⟨τ1, sp2⟩
    obtain ⟨hsp, hag⟩ := fastStep_cong T z i h e1 e2
    subst hsp
    simp only [runF, e1, e2]
    exact runF_cong T z rest hag

theorem pair_spec (T : FloatOps F) (z : Complex F) {a b f : FastMathInstr F}
    (h : fusePair T a b = some f ∨ foldPair T a b = some f) :
    shapeOf a = Shape.push ∧
      ((shapeOf b = Shape.stk ∧ shapeOf f = Shape.inplace ∧
          ∀ w, inplaceVal T z f w = stkVal T b w (pushVal T z a)) ∨
       (shapeOf b = Shape.inplace ∧ shapeOf f = Shape.push ∧
          pushVal T z f = inplaceVal T z b (pushVal T z a))) := by
  rcases h with h | h
  · cases a <;> simp only [fusePair] at h <;> try exact absurd h (by simp)
    case Z =>
      cases b <;> simp [fuseZ] at h <;> subst h <;> refine ⟨rfl, ?_⟩ <;>
        first
        | exact Or.inl ⟨rfl, rfl, fun w => rfl⟩
        | exact Or.inr ⟨rfl, rfl, rfl⟩
    case Number x =>
      cases b <;> simp [fuseN] at h <;> subst h <;> refine ⟨rfl, ?_⟩ <;>
        first
        | exact Or.inl ⟨rfl, rfl, fun w => rfl⟩
        | exact Or.inr ⟨rfl, rfl, rfl⟩
  · cases a <;> simp only [foldPair] at h <;> try exact absurd h (by simp)
    case Number x =>
      cases b <;> simp [foldN] at h <;> subst h <;> refine ⟨rfl, ?_⟩ <;>
        first
        | exact Or.inl ⟨rfl, rfl, fun w => rfl⟩
        | exact Or.inr ⟨rfl, rfl, rfl⟩

theorem peephole_length (pair : FastMathInstr F → FastMathInstr F → Option (FastMathInstr F)) :
    ∀ l : List (FastMathInstr F), (peephole pair l).length ≤ l.length
  | [] => le_rfl
  | [_] => le_rfl
  | a :: b :: rest => by
    have h1 := peephole_length pair rest
    have h2 := peephole_length pair (b :: rest)
    simp only [List.length_cons] at h2
    simp only [peephole]
    cases pair a b <;> simp only [List.length_cons] <;> omega

theorem peephole_profOk
    (pair : FastMathInstr F → FastMathInstr F → Option (FastMathInstr F))
    (hp : ∀ a b f, pair a b = some f →
      shapeOf a = Shape.push ∧
        ((shapeOf b = Shape.stk ∧ shapeOf f = Shape.inplace) ∨
         (shapeOf b = Shape.inplace ∧ shapeOf f = Shape.push))) :
    ∀ (l : List (FastMathInstr F)) (sp : Int), profOk sp l = true →
      profOk sp (peephole pair l) = true ∧ finSz sp (peephole pair l) = finSz sp l
  | [], _, h => ⟨h, rfl⟩
  | [i], _, h => ⟨h, rfl⟩
  | a :: b :: rest, sp, h => by
    cases e : pair a b with
    | some f =>
      obtain ⟨ha, hbf⟩ := hp a b f e
      simp only [peephole, e]
      rcases hbf with ⟨hb, hf⟩ | ⟨hb, hf⟩
      · simp only [profOk, finSz, fastDelta, ha, hb, hf, Bool.and_eq_true,
          decide_eq_true_eq, show sp + 1 - 1 = sp from by omega,
          show sp + 1 + -1 = sp from by omega] at h ⊢
        obtain ⟨hle, hge, hrest⟩ := h
        obtain ⟨ih1, ih2⟩ := peephole_profOk pair hp rest sp hrest
        refine ⟨⟨by omega, ih1⟩, ?_⟩
        simpa [show sp + 0 = sp from by omega] using ih2
      · simp only [profOk, finSz, fastDelta, ha, hb, hf, Bool.and_eq_true,
          decide_eq_true_eq, show sp + 1 + 0 = sp + 1 from by omega] at h ⊢
        obtain ⟨hle, hge, hrest⟩ := h
        obtain ⟨ih1, ih2⟩ := peephole_profOk pair hp rest (sp + 1) hrest
        exact ⟨⟨hle, ih1⟩, ih2⟩
    | none =>
      simp only [peephole, e]
      cases hsa : shapeOf a with
      | push =>
        simp only [profOk, finSz, fastDelta, hsa, Bool.and_eq_true,
          decide_eq_true_eq] at h ⊢
        obtain ⟨hle, hrest⟩ := h
        obtain ⟨ih1, ih2⟩ := peephole_profOk pair hp (b :: rest) (sp + 1) hrest
        exact ⟨⟨hle, ih1⟩, ih2⟩
      | inplace =>
        simp only [profOk, finSz, fastDelta, hsa, Bool.and_eq_true,
          decide_eq_true_eq, show sp + 0 = sp from by omega] at h ⊢
        obtain ⟨hle, hrest⟩ := h
        obtain ⟨ih1, ih2⟩ := peephole_profOk pair hp (b :: rest) sp hrest
        exact ⟨⟨hle, ih1⟩, ih2⟩
      | stk =>
        simp only [profOk, finSz, fastDelta, hsa, Bool.and_eq_true,
          decide_eq_true_eq, show sp + -1 = sp - 1 from by omega] at h ⊢
        obtain ⟨hle, hrest⟩ := h
        obtain ⟨ih1, ih2⟩ := peephole_profOk pair hp (b :: rest) (sp - 1) hrest
        exact ⟨⟨hle, ih1⟩, ih2⟩

theorem fastStep_push (T : FloatOps F) (z : Complex F) {i : FastMathInstr F}
    (hs : shapeOf i = Shape.push) (σ : Store F) (sp : Int) :
    fastStep T z i (σ, sp) = (wr σ (sp + 1) (pushVal T z i), sp + 1) := by
  rw [fastStep_spec, hs]

theorem fastStep_inplace (T : FloatOps F) (z : Complex F) {i : FastMathInstr F}
    (hs : shapeOf i = Shape.inplace) (σ : Store F) (sp : Int) :
    fastStep T z i (σ, sp) = (wr σ sp (inplaceVal T z i (σ sp)), sp) := by
  rw [fastStep_spec, hs]

theorem fastStep_stk (T : FloatOps F) (z : Complex F) {i : FastMathInstr F}
    (hs : shapeOf i = Shape.stk) (σ : Store F) (sp : Int) :
    fastStep T z i (σ, sp) = (wr σ (sp - 1) (stkVal T i (σ (sp - 1)) (σ sp)), sp - 1) := by
  rw [fastStep_spec, hs]

theorem peephole_sem (T : FloatOps F) (z : Complex F)
    (pair : FastMathInstr F → FastMathInstr F → Option (FastMathInstr F))
    (hp : ∀ a b f, pair a b = some f →
      shapeOf a = Shape.push ∧
        ((shapeOf b = Shape.stk ∧ shapeOf f = Shape.inplace ∧
            ∀ w, inplaceVal T z f w = stkVal T b w (pushVal T z a)) ∨
         (shapeOf b = Shape.inplace ∧ shapeOf f = Shape.push ∧
            pushVal T z f = inplaceVal T z b (pushVal T z a)))) :
    ∀ (l : List (FastMathInstr F)) {σ τ : Store F} {sp : Int}, AgreeLE sp σ τ →
      (runF T z l (σ, sp)).2 = (runF T z (peephole pair l) (τ, sp)).2 ∧
        AgreeLE (runF T z l (σ, sp)).2 (runF T z l (σ, sp)).1
          (runF T z (peephole pair l) (τ, sp)).1
  | [], _, _, _, h => ⟨rfl, h⟩
  | [i], σ, τ, sp, h => runF_cong T z [i] h
  | a :: b :: rest, σ, τ, sp, h => by
    cases e : pair a b with
    | none =>
      rcases e1 : fastStep T z a (σ, sp) with ⟨σ1, sp1⟩
      rcases e2 : fastStep T z a (τ, sp) with ⟨τ1, sp2⟩
      obtain ⟨hsp, hag⟩ := fastStep_cong T z a h e1 e2
      subst hsp
      have ih := peephole_sem T z pair hp (b :: rest) hag
      simp only [peephole, e, runF, e1, e2]
      exact ih
    | some f =>
      obtain ⟨ha, hbf⟩ := hp a b f e
      rcases hbf with ⟨hb, hf, hv⟩ | ⟨hb, hf, hv⟩
      · have e1 : fastStep T z b (fastStep T z a (σ, sp)) =
            (wr (wr σ (sp + 1) (pushVal T z a)) sp
              (stkVal T b (σ sp) (pushVal T z a)), sp) := by
          rw [fastStep_push T z ha, fastStep_stk T z hb,
            show sp + 1 - 1 = sp from by omega, wr_same,
            wr_other σ (pushVal T z a) (show sp ≠ sp + 1 from by omega)]
        have e2 : fastStep T z f (τ, sp) =
            (wr τ sp (stkVal T b (τ sp) (pushVal T z a)), sp) := by
          rw [fastStep_inplace T z hf, hv (τ sp)]
        have hag : AgreeLE sp
            (wr (wr σ (sp + 1) (pushVal T z a)) sp (stkVal T b (σ sp) (pushVal T z a)))
            (wr τ sp (stkVal T b (τ sp) (pushVal T z a))) := by
          have hsp := h sp le_rfl
          intro j hj
          by_cases hji : j = sp
          · subst hji; rw [wr_same, wr_same, hsp]
          · rw [wr_other _ _ hji, wr_other _ _ hji,
              wr_other _ _ (show j ≠ sp + 1 from by omega)]
            exact h j hj
        have ih := peephole_sem T z pair hp rest hag
        simp only [peephole, e, runF]
        rw [e1, e2]
        exact ih
      · have e1 : fastStep T z b (fastStep T z a (σ, sp)) =
            (wr σ (sp + 1) (inplaceVal T z b (pushVal T z a)), sp + 1) := by
          rw [fastStep_push T z ha, fastStep_inplace T z hb, wr_same, wr_absorb]
        have e2 : fastStep T z f (τ, sp) =
            (wr τ (sp + 1) (inplaceVal T z b (pushVal T z a)), sp + 1) := by
          rw [fastStep_push T z hf, hv]
        have hag : AgreeLE (sp + 1)
            (wr σ (sp + 1) (inplaceVal T z b (pushVal T z a)))
            (wr τ (sp + 1) (inplaceVal T z b (pushVal T z a))) := by
          intro j hj
          by_cases hji : j = sp + 1
          · subst hji; rw [wr_same, wr_same]
          · rw [wr_other _ _ hji, wr_other _ _ hji]
            exact h j (by omega)
        have ih := peephole_sem T z pair hp rest hag
        simp only [peephole, e, runF]
        rw [e1, e2]
        exact ih

theorem fusePair_shape (T : FloatOps F) : ∀ a b f : FastMathInstr F,
    fusePair T a b = some f →
      shapeOf a = Shape.push ∧
        ((shapeOf b = Shape.stk ∧ shapeOf f = Shape.inplace) ∨
         (shapeOf b = Shape.inplace ∧ shapeOf f = Shape.push)) := by
  intro a b f e
  obtain ⟨h1, h2⟩ := pair_spec T Complex.ZERO (Or.inl e)
  exact ⟨h1, h2.imp (fun x => ⟨x.1, x.2.1⟩) (fun x => ⟨x.1, x.2.1⟩)⟩

theorem foldPair_shape (T : FloatOps F) : ∀ a b f : FastMathInstr F,
    foldPair T a b = some f →
      shapeOf a = Shape.push ∧
        ((shapeOf b = Shape.stk ∧ shapeOf f = Shape.inplace) ∨
         (shapeOf b = Shape.inplace ∧ shapeOf f = Shape.push)) := by
  intro a b f e
  obtain ⟨h1, h2⟩ := pair_spec T Complex.ZERO (Or.inr e)
  exact ⟨h1, h2.imp (fun x => ⟨x.1, x.2.1⟩) (fun x => ⟨x.1, x.2.1⟩)⟩

theorem fuse_profOk (T : FloatOps F) (l : List (FastMathInstr F)) (sp : Int)
    (h : profOk sp l = true) :
    profOk sp (fuse T l) = true ∧ finSz sp (fuse T l) = finSz sp l :=
  peephole_profOk (fusePair T) (fusePair_shape T) l sp h

theorem precompute_profOk (T : FloatOps F) (l : List (FastMathInstr F)) (sp : Int)
    (h : profOk sp l = true) :
    profOk sp (precompute T l) = true ∧ finSz sp (precompute T l) = finSz sp l :=
  peephole_profOk (foldPair T) (foldPair_shape T) l sp h

theorem fuse_sem (T : FloatOps F) (z : Complex F) (l : List (FastMathInstr F))
    {σ τ : Store F} {sp : Int} (h : AgreeLE sp σ τ) :
    (runF T z l (σ, sp)).2 = (runF T z (fuse T l) (τ, sp)).2 ∧
      AgreeLE (runF T z l (σ, sp)).2 (runF T z l (σ, sp)).1
        (runF T z (fuse T l) (τ, sp)).1 :=
  peephole_sem T z (fusePair T) (fun _ _ _ e => pair_spec T z (Or.inl e)) l h

theorem precompute_sem (T : FloatOps F) (z : Complex F) (l : List (FastMathInstr F))
    {σ τ : Store F} {sp : Int} (h : AgreeLE sp σ τ) :
    (runF T z l (σ, sp)).2 = (runF T z (precompute T l) (τ, sp)).2 ∧
      AgreeLE (runF T z l (σ, sp)).2 (runF T z l (σ, sp)).1
        (runF T z (precompute T l) (τ, sp)).1 :=
  peephole_sem T z (foldPair T) (fun _ _ _ e => pair_spec T z (Or.inr e)) l h

theorem loopGo_profOk (T : FloatOps F) :
    ∀ (n : Nat) (l : List (FastMathInstr F)) (sp : Int), profOk sp l = true →
      profOk sp (loopGo T n l) = true ∧ finSz sp (loopGo T n l) = finSz sp l
  | 0, _, _, h => ⟨h, rfl⟩
  | n + 1, l, sp, h => by
    obtain ⟨p1, f1⟩ := fuse_profOk T l sp h
    obtain ⟨p2, f2⟩ := precompute_profOk T (fuse T l) sp p1
    simp only [loopGo]
    by_cases hlt : (precompute T (fuse T l)).length < l.length
    · rw [if_pos hlt]
      obtain ⟨p3, f3⟩ := loopGo_profOk T n (precompute T (fuse T l)) sp p2
      exact ⟨p3, by rw [f3, f2, f1]⟩
    · rw [if_neg hlt]
      exact ⟨p2, by rw [f2, f1]⟩

theorem specialize_profOk (T : FloatOps F) :
    ∀ (l : List (FastMathInstr F)) (sp : Int),
      profOk sp (specialize T l) = profOk sp l ∧
        finSz sp (specialize T l) = finSz sp l
  | [], _ => ⟨rfl, rfl⟩
  | i :: rest, sp => by
    have ih := fun s => specialize_profOk T rest s
    have heq : specialize T (i :: rest) = spec1 T i :: specialize T rest := rfl
    rw [heq]
    cases hs : shapeOf i with
    | push =>
      simp only [profOk, finSz, fastDelta, spec1_shape T i, hs]
      exact ⟨by rw [(ih (sp + 1)).1], by rw [(ih (sp + 1)).2]⟩
    | inplace =>
      simp only [profOk, finSz, fastDelta, spec1_shape T i, hs]
      exact ⟨by rw [(ih sp).1], by rw [(ih (sp + 0)).2]⟩
    | stk =>
      simp only [profOk, finSz, fastDelta, spec1_shape T i, hs]
      exact ⟨by rw [(ih (sp - 1)).1], by rw [(ih (sp + -1)).2]⟩

theorem specialize_runF (T : FloatOps F) (z : Complex F)
    (hbeq : ∀ a b : F, T.beq a b = true → a = b) :
    ∀ (l : List (FastMathInstr F)) (s : Store F × Int),
      runF T z (specialize T l) s = runF T z l s
  | [], _ => rfl
  | i :: rest, s => by
    simp only [specialize, List.map_cons, runF, spec1_step T z hbeq i s]
    exact specialize_runF T z hbeq rest _

theorem loopGo_sem (T : FloatOps F) (z : Complex F) :
    ∀ (n : Nat) (l : List (FastMathInstr F)) {σ τ : Store F} {sp : Int},
      AgreeLE sp σ τ →
      (runF T z l (σ, sp)).2 = (runF T z (loopGo T n l) (τ, sp)).2 ∧
        AgreeLE (runF T z l (σ, sp)).2 (runF T z l (σ, sp)).1
          (runF T z (loopGo T n l) (τ, sp)).1
  | 0, l, _, _, _, h => runF_cong T z l h
  | n + 1, l, σ, τ, sp, h => by
    obtain ⟨s1, a1⟩ := fuse_sem T z l h
    obtain ⟨s2, a2⟩ := precompute_sem T z (fuse T l) (agreeLE_refl sp τ)
    rw [← s1] at a2
    have hchain1 : (runF T z l (σ, sp)).2 =
        (runF T z (precompute T (fuse T l)) (τ, sp)).2 := s1.trans s2
    have hchain2 : AgreeLE (runF T z l (σ, sp)).2 (runF T z l (σ, sp)).1
        (runF T z (precompute T (fuse T l)) (τ, sp)).1 :=
      agreeLE_trans a1 a2
    simp only [loopGo]
    by_cases hlt : (precompute T (fuse T l)).length < l.length
    · rw [if_pos hlt]
      obtain ⟨s3, a3⟩ := loopGo_sem T z n (precompute T (fuse T l))
        (agreeLE_refl sp τ)
      rw [← hchain1] at a3
      exact ⟨hchain1.trans s3, agreeLE_trans hchain2 a3⟩
    · rw [if_neg hlt]
      exact ⟨hchain1, hchain2⟩

end CNW

namespace CNW

variable {F : Type} [Field F]

theorem validateAux_ok_inv {instr : MathInstruction F} {rest : List (MathInstruction F)}
    {s : Int} {i : Nat} (hv : validateAux s i (instr :: rest) = Except.ok ()) :
    0 < s + rawDelta instr ∧ (rawDelta instr ≤ 0 → 0 < s) ∧
      validateAux (s + rawDelta instr) (i + 1) rest = Except.ok () := by
  cases instr <;> simp only [validateAux, rawDelta] at hv ⊢ <;>
    first
    | (split at hv
       · exact absurd hv (by simp)
       · exact ⟨by omega, by omega, by simpa using hv⟩)
    | (split at hv
       · exact absurd hv (by simp)
       · refine ⟨by omega, by omega, by
           rw [show s + (-1 : Int) = s - 1 from by omega]; exact hv⟩)
    | (split at hv
       · exact absurd hv (by simp)
       · rename_i s2 heq
         split at heq
         · injection heq with h2
           subst h2
           split at hv
           · exact absurd hv (by simp)
           · exact ⟨by omega, fun _ => by omega, by simpa using hv⟩
         · exact absurd heq (by simp))

theorem rawMaxOk_cons {instr : MathInstruction F} {rest : List (MathInstruction F)}
    {s : Int} (h : rawMaxOk s (instr :: rest) = true) :
    s + rawDelta instr ≤ 31 ∧ rawMaxOk (s + rawDelta instr) rest = true := by
  simpa only [rawMaxOk, Bool.and_eq_true, decide_eq_true_eq] using h

theorem rel_nil (σ : Store F) : Rel [] σ := fun _ h => absurd h (by simp)

theorem rel_push {st : List (Complex F)} {σ : Store F} (h : Rel st σ) (v : Complex F) :
    Rel (v :: st) (wr σ ((st.length : Int) + 1) v) := by
  intro k hk
  cases k with
  | zero =>
    have e : ((v :: st).length : Int) - ((0 : Nat) : Int) = (st.length : Int) + 1 := by
      simp
    rw [e, wr_same]
    rfl
  | succ k =>
    have hk2 : k < st.length := by simpa using hk
    have e : ((v :: st).length : Int) - ((k + 1 : Nat) : Int) = (st.length : Int) - (k : Int) := by
      simp only [List.length_cons]
      push_cast
      omega
    rw [e, wr_other _ _ (show (st.length : Int) - (k : Int) ≠ (st.length : Int) + 1 from by omega)]
    rw [h k hk2]
    exact (List.get_cons_succ ..).symm

theorem rel_top {c : Complex F} {st : List (Complex F)} {σ : Store F}
    (h : Rel (c :: st) σ) : σ ((c :: st).length : Int) = c := by
  have e := h 0 (by simp)
  simpa using e

theorem rel_second {b a : Complex F} {st : List (Complex F)} {σ : Store F}
    (h : Rel (b :: a :: st) σ) : σ (((b :: a :: st).length : Int) - 1) = a := by
  have e := h 1 (by simp)
  simpa using e

theorem rel_replace_top {c : Complex F} {st : List (Complex F)} {σ : Store F}
    (h : Rel (c :: st) σ) (v : Complex F) :
    Rel (v :: st) (wr σ ((c :: st).length : Int) v) := by
  intro k hk
  cases k with
  | zero =>
    have e : ((v :: st).length : Int) - ((0 : Nat) : Int) = ((c :: st).length : Int) := by
      simp
    rw [e, wr_same]
    rfl
  | succ k =>
    have hk2 : k + 1 < (c :: st).length := by simpa using hk
    have e : ((v :: st).length : Int) - ((k + 1 : Nat) : Int) =
        ((c :: st).length : Int) - ((k + 1 : Nat) : Int) := by
      simp
    rw [e, wr_other _ _ (show ((c :: st).length : Int) - ((k + 1 : Nat) : Int) ≠
        ((c :: st).length : Int) from by push_cast; omega)]
    rw [h (k + 1) hk2]
    rfl

theorem rel_binop {b a : Complex F} {st : List (Complex F)} {σ : Store F}
    (h : Rel (b :: a :: st) σ) (v : Complex F) :
    Rel (v :: st) (wr σ (((b :: a :: st).length : Int) - 1) v) := by
  intro k hk
  cases k with
  | zero =>
    have e : ((v :: st).length : Int) - ((0 : Nat) : Int) =
        ((b :: a :: st).length : Int) - 1 := by
      simp only [List.length_cons]
      push_cast
      omega
    rw [e, wr_same]
    rfl
  | succ k =>
    have hk2 : k + 2 < (b :: a :: st).length := by
      simp only [List.length_cons]
      simp only [List.length_cons] at hk
      omega
    have e : ((v :: st).length : Int) - ((k + 1 : Nat) : Int) =
        ((b :: a :: st).length : Int) - ((k + 2 : Nat) : Int) := by
      simp only [List.length_cons]
      push_cast
      omega
    rw [e, wr_other _ _ (show ((b :: a :: st).length : Int) - ((k + 2 : Nat) : Int) ≠
        ((b :: a :: st).length : Int) - 1 from by push_cast; omega)]
    rw [h (k + 2) hk2]
    rfl

theorem stageA_sim (T : FloatOps F) (z : Complex F) :
    ∀ (p : List (MathInstruction F)) (q : List (FastMathInstr F))
      (st : List (Complex F)) (σ : Store F) (i : Nat),
      stageA T p = some q →
      validateAux (st.length : Int) i p = Except.ok () →
      rawMaxOk (st.length : Int) p = true →
      Rel st σ →
      ∃ st2, evalRawGo T z st p = some st2 ∧ st2.length = 1 ∧
        (runF T z q (σ, (st.length : Int))).2 = 1 ∧
        Rel st2 (runF T z q (σ, (st.length : Int))).1
  | [], q, st, σ, i, hq, hv, _, hrel => by
    simp only [stageA, Option.some.injEq] at hq
    subst hq
    simp only [validateAux] at hv
    split at hv
    · exact absurd hv (by simp)
    · rename_i hs
      have h1 : st.length = 1 := by omega
      refine ⟨st, rfl, h1, ?_, ?_⟩
      · show (st.length : Int) = 1
        omega
      · exact hrel
  | .Imag :: rest, q, st, σ, i, hq, hv, hm, hrel => by
    have hnone : (none : Option (List (FastMathInstr F))) = some q := hq
    exact absurd hnone (by simp)
  | .Number x :: rest, q, st, σ, i, hq, hv, hm, hrel => by
    have hsplit : (∃ rest2, rest = MathInstruction.Imag :: rest2) ∨
        stageA T (MathInstruction.Number x :: rest) =
          (stageA T rest).map (FastMathInstr.Number (Complex.fromReal x) :: ·) := by
      cases rest with
      | nil => exact Or.inr rfl
      | cons r rest2 =>
        cases r
        case Imag => exact Or.inl ⟨rest2, rfl⟩
        all_goals exact Or.inr rfl
    rcases hsplit with ⟨rest2, rfl⟩ | heq
    ·   simp only [stageA] at hq
        rcases Option.map_eq_some'.mp hq with ⟨q2, hq2, rfl⟩
        obtain ⟨h1a, h0a, hv1⟩ := validateAux_ok_inv hv
        obtain ⟨h1b, h0b, hv2⟩ := validateAux_ok_inv hv1
        obtain ⟨m1, hm1⟩ := rawMaxOk_cons hm
        obtain ⟨m2, hm2⟩ := rawMaxOk_cons hm1
        simp only [rawDelta, add_zero] at hv2 m1 hm2
        have hc : ((Complex.fromImag x :: st).length : Int) = (st.length : Int) + 1 := by
          simp
        have hlt : st.length < 32 := by omega
        obtain ⟨st2, hgo, hlen1, hsp, hrel2⟩ :=
          stageA_sim T z rest2 q2 (Complex.fromImag x :: st)
            (wr σ ((st.length : Int) + 1) (Complex.fromImag x)) (i + 1 + 1)
            hq2 (by rw [hc]; exact hv2) (by rw [hc]; exact hm2)
            (rel_push hrel (Complex.fromImag x))
        rw [hc] at hsp hrel2
        refine ⟨st2, ?_, hlen1, ?_, ?_⟩
        · simp only [evalRawGo, rawStep, pushC, if_pos hlt]
          rw [fromReal_mul_imag_one]
          exact hgo
        · simp only [runF, fastStep]
          exact hsp
        · simp only [runF, fastStep]
          exact hrel2
    ·   rw [heq] at hq
        rcases Option.map_eq_some'.mp hq with ⟨q2, hq2, rfl⟩
        obtain ⟨h1, h0, hv1⟩ := validateAux_ok_inv hv
        obtain ⟨m1, hm1⟩ := rawMaxOk_cons hm
        simp only [rawDelta] at hv1 m1 hm1
        have hc : ((Complex.fromReal x :: st).length : Int) = (st.length : Int) + 1 := by simp
        have hlt : st.length < 32 := by omega
        obtain ⟨st2, hgo, hlen1, hsp, hrel2⟩ :=
          stageA_sim T z rest q2 (Complex.fromReal x :: st) (wr σ ((st.length : Int) + 1) (Complex.fromReal x)) (i + 1)
            hq2 (by rw [hc]; exact hv1) (by rw [hc]; exact hm1) (rel_push hrel (Complex.fromReal x))
        rw [hc] at hsp hrel2
        refine ⟨st2, ?_, hlen1, ?_, ?_⟩
        · simp only [evalRawGo, rawStep, pushC, if_pos hlt]
          exact hgo
        · simp only [runF, fastStep]
          exact hsp
        · simp only [runF, fastStep]
          exact hrel2
  | .Z :: rest, q, st, σ, i, hq, hv, hm, hrel => by
    simp only [stageA] at hq
    rcases Option.map_eq_some'.mp hq with ⟨q2, hq2, rfl⟩
    obtain ⟨h1, h0, hv1⟩ := validateAux_ok_inv hv
    obtain ⟨m1, hm1⟩ := rawMaxOk_cons hm
    simp only [rawDelta] at hv1 m1 hm1
    have hc : ((z :: st).length : Int) = (st.length : Int) + 1 := by simp
    have hlt : st.length < 32 := by omega
    obtain ⟨st2, hgo, hlen1, hsp, hrel2⟩ :=
      stageA_sim T z rest q2 (z :: st) (wr σ ((st.length : Int) + 1) (z)) (i + 1)
        hq2 (by rw [hc]; exact hv1) (by rw [hc]; exact hm1) (rel_push hrel (z))
    rw [hc] at hsp hrel2
    refine ⟨st2, ?_, hlen1, ?_, ?_⟩
    · simp only [evalRawGo, rawStep, pushC, if_pos hlt]
      exact hgo
    · simp only [runF, fastStep]
      exact hsp
    · simp only [runF, fastStep]
      exact hrel2
  | .ZConj :: rest, q, st, σ, i, hq, hv, hm, hrel => by
    simp only [stageA] at hq
    rcases Option.map_eq_some'.mp hq with ⟨q2, hq2, rfl⟩
    obtain ⟨h1, h0, hv1⟩ := validateAux_ok_inv hv
    obtain ⟨m1, hm1⟩ := rawMaxOk_cons hm
    simp only [rawDelta] at hv1 m1 hm1
    have hc : ((Complex.conj z :: st).length : Int) = (st.length : Int) + 1 := by simp
    have hlt : st.length < 32 := by omega
    obtain ⟨st2, hgo, hlen1, hsp, hrel2⟩ :=
      stageA_sim T z rest q2 (Complex.conj z :: st) (wr σ ((st.length : Int) + 1) (Complex.conj z)) (i + 1)
        hq2 (by rw [hc]; exact hv1) (by rw [hc]; exact hm1) (rel_push hrel (Complex.conj z))
    rw [hc] at hsp hrel2
    refine ⟨st2, ?_, hlen1, ?_, ?_⟩
    · simp only [evalRawGo, rawStep, pushC, if_pos hlt]
      exact hgo
    · simp only [runF, fastStep]
      exact hsp
    · simp only [runF, fastStep]
      exact hrel2
  | .Pi :: rest, q, st, σ, i, hq, hv, hm, hrel => by
    simp only [stageA] at hq
    rcases Option.map_eq_some'.mp hq with ⟨q2, hq2, rfl⟩
    obtain ⟨h1, h0, hv1⟩ := validateAux_ok_inv hv
    obtain ⟨m1, hm1⟩ := rawMaxOk_cons hm
    simp only [rawDelta] at hv1 m1 hm1
    have hc : ((Complex.fromReal T.pi :: st).length : Int) = (st.length : Int) + 1 := by simp
    have hlt : st.length < 32 := by omega
    obtain ⟨st2, hgo, hlen1, hsp, hrel2⟩ :=
      stageA_sim T z rest q2 (Complex.fromReal T.pi :: st) (wr σ ((st.length : Int) + 1) (Complex.fromReal T.pi)) (i + 1)
        hq2 (by rw [hc]; exact hv1) (by rw [hc]; exact hm1) (rel_push hrel (Complex.fromReal T.pi))
    rw [hc] at hsp hrel2
    refine ⟨st2, ?_, hlen1, ?_, ?_⟩
    · simp only [evalRawGo, rawStep, pushC, if_pos hlt]
      exact hgo
    · simp only [runF, fastStep]
      exact hsp
    · simp only [runF, fastStep]
      exact hrel2
  | .E :: rest, q, st, σ, i, hq, hv, hm, hrel => by
    simp only [stageA] at hq
    rcases Option.map_eq_some'.mp hq with ⟨q2, hq2, rfl⟩
    obtain ⟨h1, h0, hv1⟩ := validateAux_ok_inv hv
    obtain ⟨m1, hm1⟩ := rawMaxOk_cons hm
    simp only [rawDelta] at hv1 m1 hm1
    have hc : ((Complex.fromReal T.e :: st).length : Int) = (st.length : Int) + 1 := by simp
    have hlt : st.length < 32 := by omega
    obtain ⟨st2, hgo, hlen1, hsp, hrel2⟩ :=
      stageA_sim T z rest q2 (Complex.fromReal T.e :: st) (wr σ ((st.length : Int) + 1) (Complex.fromReal T.e)) (i + 1)
        hq2 (by rw [hc]; exact hv1) (by rw [hc]; exact hm1) (rel_push hrel (Complex.fromReal T.e))
    rw [hc] at hsp hrel2
    refine ⟨st2, ?_, hlen1, ?_, ?_⟩
    · simp only [evalRawGo, rawStep, pushC, if_pos hlt]
      exact hgo
    · simp only [runF, fastStep]
      exact hsp
    · simp only [runF, fastStep]
      exact hrel2
  | .Conj :: rest, q, st, σ, i, hq, hv, hm, hrel => by
    simp only [stageA] at hq
    rcases Option.map_eq_some'.mp hq with ⟨q2, hq2, rfl⟩
    obtain ⟨h1, h0, hv1⟩ := validateAux_ok_inv hv
    obtain ⟨m1, hm1⟩ := rawMaxOk_cons hm
    simp only [rawDelta, add_zero] at hv1 m1 hm1
    cases st with
    | nil => exact absurd (h0 (by norm_num [rawDelta])) (by norm_num)
    | cons c st0 =>
      have hc : ((Complex.conj c :: st0).length : Int) = ((c :: st0).length : Int) := by simp
      have hlt : st0.length < 32 := by
        simp only [List.length_cons] at m1
        omega
      have htop := rel_top hrel
      obtain ⟨st2, hgo, hlen1, hsp, hrel2⟩ :=
        stageA_sim T z rest q2 (Complex.conj c :: st0)
          (wr σ (((c :: st0).length : Int)) (Complex.conj c)) (i + 1)
          hq2 (by rw [hc]; exact hv1) (by rw [hc]; exact hm1)
          (rel_replace_top hrel (Complex.conj c))
      rw [hc] at hsp hrel2
      refine ⟨st2, ?_, hlen1, ?_, ?_⟩
      · simp only [evalRawGo, rawStep, pushC, if_pos hlt]
        exact hgo
      · simp only [runF, fastStep]
        rw [htop]
        exact hsp
      · simp only [runF, fastStep]
        rw [htop]
        exact hrel2
  | .Sqrt :: rest, q, st, σ, i, hq, hv, hm, hrel => by
    simp only [stageA] at hq
    rcases Option.map_eq_some'.mp hq with ⟨q2, hq2, rfl⟩
    obtain ⟨h1, h0, hv1⟩ := validateAux_ok_inv hv
    obtain ⟨m1, hm1⟩ := rawMaxOk_cons hm
    simp only [rawDelta, add_zero] at hv1 m1 hm1
    cases st with
    | nil => exact absurd (h0 (by norm_num [rawDelta])) (by norm_num)
    | cons c st0 =>
      have hc : ((powF T c (1 / 2) :: st0).length : Int) = ((c :: st0).length : Int) := by simp
      have hlt : st0.length < 32 := by
        simp only [List.length_cons] at m1
        omega
      have htop := rel_top hrel
      obtain ⟨st2, hgo, hlen1, hsp, hrel2⟩ :=
        stageA_sim T z rest q2 (powF T c (1 / 2) :: st0)
          (wr σ (((c :: st0).length : Int)) (powF T c (1 / 2))) (i + 1)
          hq2 (by rw [hc]; exact hv1) (by rw [hc]; exact hm1)
          (rel_replace_top hrel (powF T c (1 / 2)))
      rw [hc] at hsp hrel2
      refine ⟨st2, ?_, hlen1, ?_, ?_⟩
      · simp only [evalRawGo, rawStep, pushC, if_pos hlt]
        exact hgo
      · simp only [runF, fastStep]
        rw [htop]
        exact hsp
      · simp only [runF, fastStep]
        rw [htop]
        exact hrel2
  | .Exp :: rest, q, st, σ, i, hq, hv, hm, hrel => by
    simp only [stageA] at hq
    rcases Option.map_eq_some'.mp hq with ⟨q2, hq2, rfl⟩
    obtain ⟨h1, h0, hv1⟩ := validateAux_ok_inv hv
    obtain ⟨m1, hm1⟩ := rawMaxOk_cons hm
    simp only [rawDelta, add_zero] at hv1 m1 hm1
    cases st with
    | nil => exact absurd (h0 (by norm_num [rawDelta])) (by norm_num)
    | cons c st0 =>
      have hc : ((expC T c :: st0).length : Int) = ((c :: st0).length : Int) := by simp
      have hlt : st0.length < 32 := by
        simp only [List.length_cons] at m1
        omega
      have htop := rel_top hrel
      obtain ⟨st2, hgo, hlen1, hsp, hrel2⟩ :=
        stageA_sim T z rest q2 (expC T c :: st0)
          (wr σ (((c :: st0).length : Int)) (expC T c)) (i + 1)
          hq2 (by rw [hc]; exact hv1) (by rw [hc]; exact hm1)
          (rel_replace_top hrel (expC T c))
      rw [hc] at hsp hrel2
      refine ⟨st2, ?_, hlen1, ?_, ?_⟩
      · simp only [evalRawGo, rawStep, pushC, if_pos hlt]
        exact hgo
      · simp only [runF, fastStep]
        rw [htop]
        exact hsp
      · simp only [runF, fastStep]
        rw [htop]
        exact hrel2
  | .Ln :: rest, q, st, σ, i, hq, hv, hm, hrel => by
    simp only [stageA] at hq
    rcases Option.map_eq_some'.mp hq with ⟨q2, hq2, rfl⟩
    obtain ⟨h1, h0, hv1⟩ := validateAux_ok_inv hv
    obtain ⟨m1, hm1⟩ := rawMaxOk_cons hm
    simp only [rawDelta, add_zero] at hv1 m1 hm1
    cases st with
    | nil => exact absurd (h0 (by norm_num [rawDelta])) (by norm_num)
    | cons c st0 =>
      have hc : ((logC T c :: st0).length : Int) = ((c :: st0).length : Int) := by simp
      have hlt : st0.length < 32 := by
        simp only [List.length_cons] at m1
        omega
      have htop := rel_top hrel
      obtain ⟨st2, hgo, hlen1, hsp, hrel2⟩ :=
        stageA_sim T z rest q2 (logC T c :: st0)
          (wr σ (((c :: st0).length : Int)) (logC T c)) (i + 1)
          hq2 (by rw [hc]; exact hv1) (by rw [hc]; exact hm1)
          (rel_replace_top hrel (logC T c))
      rw [hc] at hsp hrel2
      refine ⟨st2, ?_, hlen1, ?_, ?_⟩
      · simp only [evalRawGo, rawStep, pushC, if_pos hlt]
        exact hgo
      · simp only [runF, fastStep]
        rw [htop]
        exact hsp
      · simp only [runF, fastStep]
        rw [htop]
        exact hrel2
  | .Sin :: rest, q, st, σ, i, hq, hv, hm, hrel => by
    simp only [stageA] at hq
    rcases Option.map_eq_some'.mp hq with ⟨q2, hq2, rfl⟩
    obtain ⟨h1, h0, hv1⟩ := validateAux_ok_inv hv
    obtain ⟨m1, hm1⟩ := rawMaxOk_cons hm
    simp only [rawDelta, add_zero] at hv1 m1 hm1
    cases st with
    | nil => exact absurd (h0 (by norm_num [rawDelta])) (by norm_num)
    | cons c st0 =>
      have hc : ((sinC T c :: st0).length : Int) = ((c :: st0).length : Int) := by simp
      have hlt : st0.length < 32 := by
        simp only [List.length_cons] at m1
        omega
      have htop := rel_top hrel
      obtain ⟨st2, hgo, hlen1, hsp, hrel2⟩ :=
        stageA_sim T z rest q2 (sinC T c :: st0)
          (wr σ (((c :: st0).length : Int)) (sinC T c)) (i + 1)
          hq2 (by rw [hc]; exact hv1) (by rw [hc]; exact hm1)
          (rel_replace_top hrel (sinC T c))
      rw [hc] at hsp hrel2
      refine ⟨st2, ?_, hlen1, ?_, ?_⟩
      · simp only [evalRawGo, rawStep, pushC, if_pos hlt]
        exact hgo
      · simp only [runF, fastStep]
        rw [htop]
        exact hsp
      · simp only [runF, fastStep]
        rw [htop]
        exact hrel2
  | .Cos :: rest, q, st, σ, i, hq, hv, hm, hrel => by
    simp only [stageA] at hq
    rcases Option.map_eq_some'.mp hq with ⟨q2, hq2, rfl⟩
    obtain ⟨h1, h0, hv1⟩ := validateAux_ok_inv hv
    obtain ⟨m1, hm1⟩ := rawMaxOk_cons hm
    simp only [rawDelta, add_zero] at hv1 m1 hm1
    cases st with
    | nil => exact absurd (h0 (by norm_num [rawDelta])) (by norm_num)
    | cons c st0 =>
      have hc : ((cosC T c :: st0).length : Int) = ((c :: st0).length : Int) := by simp
      have hlt : st0.length < 32 := by
        simp only [List.length_cons] at m1
        omega
      have htop := rel_top hrel
      obtain ⟨st2, hgo, hlen1, hsp, hrel2⟩ :=
        stageA_sim T z rest q2 (cosC T c :: st0)
          (wr σ (((c :: st0).length : Int)) (cosC T c)) (i + 1)
          hq2 (by rw [hc]; exact hv1) (by rw [hc]; exact hm1)
          (rel_replace_top hrel (cosC T c))
      rw [hc] at hsp hrel2
      refine ⟨st2, ?_, hlen1, ?_, ?_⟩
      · simp only [evalRawGo, rawStep, pushC, if_pos hlt]
        exact hgo
      · simp only [runF, fastStep]
        rw [htop]
        exact hsp
      · simp only [runF, fastStep]
        rw [htop]
        exact hrel2
  | .Tan :: rest, q, st, σ, i, hq, hv, hm, hrel => by
    simp only [stageA] at hq
    rcases Option.map_eq_some'.mp hq with ⟨q2, hq2, rfl⟩
    obtain ⟨h1, h0, hv1⟩ := validateAux_ok_inv hv
    obtain ⟨m1, hm1⟩ := rawMaxOk_cons hm
    simp only [rawDelta, add_zero] at hv1 m1 hm1
    cases st with
    | nil => exact absurd (h0 (by norm_num [rawDelta])) (by norm_num)
    | cons c st0 =>
      have hc : ((tanC T c :: st0).length : Int) = ((c :: st0).length : Int) := by simp
      have hlt : st0.length < 32 := by
        simp only [List.length_cons] at m1
        omega
      have htop := rel_top hrel
      obtain ⟨st2, hgo, hlen1, hsp, hrel2⟩ :=
        stageA_sim T z rest q2 (tanC T c :: st0)
          (wr σ (((c :: st0).length : Int)) (tanC T c)) (i + 1)
          hq2 (by rw [hc]; exact hv1) (by rw [hc]; exact hm1)
          (rel_replace_top hrel (tanC T c))
      rw [hc] at hsp hrel2
      refine ⟨st2, ?_, hlen1, ?_, ?_⟩
      · simp only [evalRawGo, rawStep, pushC, if_pos hlt]
        exact hgo
      · simp only [runF, fastStep]
        rw [htop]
        exact hsp
      · simp only [runF, fastStep]
        rw [htop]
        exact hrel2
  | .Arcsin :: rest, q, st, σ, i, hq, hv, hm, hrel => by
    simp only [stageA] at hq
    rcases Option.map_eq_some'.mp hq with ⟨q2, hq2, rfl⟩
    obtain ⟨h1, h0, hv1⟩ := validateAux_ok_inv hv
    obtain ⟨m1, hm1⟩ := rawMaxOk_cons hm
    simp only [rawDelta, add_zero] at hv1 m1 hm1
    cases st with
    | nil => exact absurd (h0 (by norm_num [rawDelta])) (by norm_num)
    | cons c st0 =>
      have hc : ((arcsinC T c :: st0).length : Int) = ((c :: st0).length : Int) := by simp
      have hlt : st0.length < 32 := by
        simp only [List.length_cons] at m1
        omega
      have htop := rel_top hrel
      obtain ⟨st2, hgo, hlen1, hsp, hrel2⟩ :=
        stageA_sim T z rest q2 (arcsinC T c :: st0)
          (wr σ (((c :: st0).length : Int)) (arcsinC T c)) (i + 1)
          hq2 (by rw [hc]; exact hv1) (by rw [hc]; exact hm1)
          (rel_replace_top hrel (arcsinC T c))
      rw [hc] at hsp hrel2
      refine ⟨st2, ?_, hlen1, ?_, ?_⟩
      · simp only [evalRawGo, rawStep, pushC, if_pos hlt]
        exact hgo
      · simp only [runF, fastStep]
        rw [htop]
        exact hsp
      · simp only [runF, fastStep]
        rw [htop]
        exact hrel2
  | .Arccos :: rest, q, st, σ, i, hq, hv, hm, hrel => by
    simp only [stageA] at hq
    rcases Option.map_eq_some'.mp hq with ⟨q2, hq2, rfl⟩
    obtain ⟨h1, h0, hv1⟩ := validateAux_ok_inv hv
    obtain ⟨m1, hm1⟩ := rawMaxOk_cons hm
    simp only [rawDelta, add_zero] at hv1 m1 hm1
    cases st with
    | nil => exact absurd (h0 (by norm_num [rawDelta])) (by norm_num)
    | cons c st0 =>
      have hc : ((arccosC T c :: st0).length : Int) = ((c :: st0).length : Int) := by simp
      have hlt : st0.length < 32 := by
        simp only [List.length_cons] at m1
        omega
      have htop := rel_top hrel
      obtain ⟨st2, hgo, hlen1, hsp, hrel2⟩ :=
        stageA_sim T z rest q2 (arccosC T c :: st0)
          (wr σ (((c :: st0).length : Int)) (arccosC T c)) (i + 1)
          hq2 (by rw [hc]; exact hv1) (by rw [hc]; exact hm1)
          (rel_replace_top hrel (arccosC T c))
      rw [hc] at hsp hrel2
      refine ⟨st2, ?_, hlen1, ?_, ?_⟩
      · simp only [evalRawGo, rawStep, pushC, if_pos hlt]
        exact hgo
      · simp only [runF, fastStep]
        rw [htop]
        exact hsp
      · simp only [runF, fastStep]
        rw [htop]
        exact hrel2
  | .Arctan :: rest, q, st, σ, i, hq, hv, hm, hrel => by
    simp only [stageA] at hq
    rcases Option.map_eq_some'.mp hq with ⟨q2, hq2, rfl⟩
    obtain ⟨h1, h0, hv1⟩ := validateAux_ok_inv hv
    obtain ⟨m1, hm1⟩ := rawMaxOk_cons hm
    simp only [rawDelta, add_zero] at hv1 m1 hm1
    cases st with
    | nil => exact absurd (h0 (by norm_num [rawDelta])) (by norm_num)
    | cons c st0 =>
      have hc : ((arctanC T c :: st0).length : Int) = ((c :: st0).length : Int) := by simp
      have hlt : st0.length < 32 := by
        simp only [List.length_cons] at m1
        omega
      have htop := rel_top hrel
      obtain ⟨st2, hgo, hlen1, hsp, hrel2⟩ :=
        stageA_sim T z rest q2 (arctanC T c :: st0)
          (wr σ (((c :: st0).length : Int)) (arctanC T c)) (i + 1)
          hq2 (by rw [hc]; exact hv1) (by rw [hc]; exact hm1)
          (rel_replace_top hrel (arctanC T c))
      rw [hc] at hsp hrel2
      refine ⟨st2, ?_, hlen1, ?_, ?_⟩
      · simp only [evalRawGo, rawStep, pushC, if_pos hlt]
        exact hgo
      · simp only [runF, fastStep]
        rw [htop]
        exact hsp
      · simp only [runF, fastStep]
        rw [htop]
        exact hrel2
  | .Add :: rest, q, st, σ, i, hq, hv, hm, hrel => by
    simp only [stageA] at hq
    rcases Option.map_eq_some'.mp hq with ⟨q2, hq2, rfl⟩
    obtain ⟨h1, h0, hv1⟩ := validateAux_ok_inv hv
    obtain ⟨m1, hm1⟩ := rawMaxOk_cons hm
    simp only [rawDelta] at h1 hv1 m1 hm1
    cases st with
    | nil => exact absurd h1 (by norm_num)
    | cons b st1 =>
      cases st1 with
      | nil => exact absurd h1 (by norm_num)
      | cons a st0 =>
        have hc : (((a + b) :: st0).length : Int) =
            ((b :: a :: st0).length : Int) + (-1) := by
          simp only [List.length_cons]
          push_cast
          omega
        have hd : ((b :: a :: st0).length : Int) + (-1) =
            ((b :: a :: st0).length : Int) - 1 := by omega
        have hlt : st0.length < 32 := by
          simp only [List.length_cons] at m1
          omega
        have htop := rel_top hrel
        have hsec := rel_second hrel
        obtain ⟨st2, hgo, hlen1, hsp, hrel2⟩ :=
          stageA_sim T z rest q2 ((a + b) :: st0)
            (wr σ (((b :: a :: st0).length : Int) - 1) (a + b)) (i + 1)
            hq2 (by rw [hc]; exact hv1) (by rw [hc]; exact hm1)
            (rel_binop hrel (a + b))
        rw [hc, hd] at hsp hrel2
        refine ⟨st2, ?_, hlen1, ?_, ?_⟩
        · simp only [evalRawGo, rawStep, pushC, if_pos hlt]
          exact hgo
        · simp only [runF, fastStep]
          rw [htop, hsec]
          exact hsp
        · simp only [runF, fastStep]
          rw [htop, hsec]
          exact hrel2
  | .Sub :: rest, q, st, σ, i, hq, hv, hm, hrel => by
    simp only [stageA] at hq
    rcases Option.map_eq_some'.mp hq with ⟨q2, hq2, rfl⟩
    obtain ⟨h1, h0, hv1⟩ := validateAux_ok_inv hv
    obtain ⟨m1, hm1⟩ := rawMaxOk_cons hm
    simp only [rawDelta] at h1 hv1 m1 hm1
    cases st with
    | nil => exact absurd h1 (by norm_num)
    | cons b st1 =>
      cases st1 with
      | nil => exact absurd h1 (by norm_num)
      | cons a st0 =>
        have hc : (((a - b) :: st0).length : Int) =
            ((b :: a :: st0).length : Int) + (-1) := by
          simp only [List.length_cons]
          push_cast
          omega
        have hd : ((b :: a :: st0).length : Int) + (-1) =
            ((b :: a :: st0).length : Int) - 1 := by omega
        have hlt : st0.length < 32 := by
          simp only [List.length_cons] at m1
          omega
        have htop := rel_top hrel
        have hsec := rel_second hrel
        obtain ⟨st2, hgo, hlen1, hsp, hrel2⟩ :=
          stageA_sim T z rest q2 ((a - b) :: st0)
            (wr σ (((b :: a :: st0).length : Int) - 1) (a - b)) (i + 1)
            hq2 (by rw [hc]; exact hv1) (by rw [hc]; exact hm1)
            (rel_binop hrel (a - b))
        rw [hc, hd] at hsp hrel2
        refine ⟨st2, ?_, hlen1, ?_, ?_⟩
        · simp only [evalRawGo, rawStep, pushC, if_pos hlt]
          exact hgo
        · simp only [runF, fastStep]
          rw [htop, hsec]
          exact hsp
        · simp only [runF, fastStep]
          rw [htop, hsec]
          exact hrel2
  | .Mul :: rest, q, st, σ, i, hq, hv, hm, hrel => by
    simp only [stageA] at hq
    rcases Option.map_eq_some'.mp hq with ⟨q2, hq2, rfl⟩
    obtain ⟨h1, h0, hv1⟩ := validateAux_ok_inv hv
    obtain ⟨m1, hm1⟩ := rawMaxOk_cons hm
    simp only [rawDelta] at h1 hv1 m1 hm1
    cases st with
    | nil => exact absurd h1 (by norm_num)
    | cons b st1 =>
      cases st1 with
      | nil => exact absurd h1 (by norm_num)
      | cons a st0 =>
        have hc : (((a * b) :: st0).length : Int) =
            ((b :: a :: st0).length : Int) + (-1) := by
          simp only [List.length_cons]
          push_cast
          omega
        have hd : ((b :: a :: st0).length : Int) + (-1) =
            ((b :: a :: st0).length : Int) - 1 := by omega
        have hlt : st0.length < 32 := by
          simp only [List.length_cons] at m1
          omega
        have htop := rel_top hrel
        have hsec := rel_second hrel
        obtain ⟨st2, hgo, hlen1, hsp, hrel2⟩ :=
          stageA_sim T z rest q2 ((a * b) :: st0)
            (wr σ (((b :: a :: st0).length : Int) - 1) (a * b)) (i + 1)
            hq2 (by rw [hc]; exact hv1) (by rw [hc]; exact hm1)
            (rel_binop hrel (a * b))
        rw [hc, hd] at hsp hrel2
        refine ⟨st2, ?_, hlen1, ?_, ?_⟩
        · simp only [evalRawGo, rawStep, pushC, if_pos hlt]
          exact hgo
        · simp only [runF, fastStep]
          rw [htop, hsec]
          exact hsp
        · simp only [runF, fastStep]
          rw [htop, hsec]
          exact hrel2
  | .Div :: rest, q, st, σ, i, hq, hv, hm, hrel => by
    simp only [stageA] at hq
    rcases Option.map_eq_some'.mp hq with ⟨q2, hq2, rfl⟩
    obtain ⟨h1, h0, hv1⟩ := validateAux_ok_inv hv
    obtain ⟨m1, hm1⟩ := rawMaxOk_cons hm
    simp only [rawDelta] at h1 hv1 m1 hm1
    cases st with
    | nil => exact absurd h1 (by norm_num)
    | cons b st1 =>
      cases st1 with
      | nil => exact absurd h1 (by norm_num)
      | cons a st0 =>
        have hc : (((a / b) :: st0).length : Int) =
            ((b :: a :: st0).length : Int) + (-1) := by
          simp only [List.length_cons]
          push_cast
          omega
        have hd : ((b :: a :: st0).length : Int) + (-1) =
            ((b :: a :: st0).length : Int) - 1 := by omega
        have hlt : st0.length < 32 := by
          simp only [List.length_cons] at m1
          omega
        have htop := rel_top hrel
        have hsec := rel_second hrel
        obtain ⟨st2, hgo, hlen1, hsp, hrel2⟩ :=
          stageA_sim T z rest q2 ((a / b) :: st0)
            (wr σ (((b :: a :: st0).length : Int) - 1) (a / b)) (i + 1)
            hq2 (by rw [hc]; exact hv1) (by rw [hc]; exact hm1)
            (rel_binop hrel (a / b))
        rw [hc, hd] at hsp hrel2
        refine ⟨st2, ?_, hlen1, ?_, ?_⟩
        · simp only [evalRawGo, rawStep, pushC, if_pos hlt]
          exact hgo
        · simp only [runF, fastStep]
          rw [htop, hsec]
          exact hsp
        · simp only [runF, fastStep]
          rw [htop, hsec]
          exact hrel2
  | .Pow :: rest, q, st, σ, i, hq, hv, hm, hrel => by
    simp only [stageA] at hq
    rcases Option.map_eq_some'.mp hq with ⟨q2, hq2, rfl⟩
    obtain ⟨h1, h0, hv1⟩ := validateAux_ok_inv hv
    obtain ⟨m1, hm1⟩ := rawMaxOk_cons hm
    simp only [rawDelta] at h1 hv1 m1 hm1
    cases st with
    | nil => exact absurd h1 (by norm_num)
    | cons b st1 =>
      cases st1 with
      | nil => exact absurd h1 (by norm_num)
      | cons a st0 =>
        have hc : ((powC T a b :: st0).length : Int) =
            ((b :: a :: st0).length : Int) + (-1) := by
          simp only [List.length_cons]
          push_cast
          omega
        have hd : ((b :: a :: st0).length : Int) + (-1) =
            ((b :: a :: st0).length : Int) - 1 := by omega
        have hlt : st0.length < 32 := by
          simp only [List.length_cons] at m1
          omega
        have htop := rel_top hrel
        have hsec := rel_second hrel
        obtain ⟨st2, hgo, hlen1, hsp, hrel2⟩ :=
          stageA_sim T z rest q2 (powC T a b :: st0)
            (wr σ (((b :: a :: st0).length : Int) - 1) (powC T a b)) (i + 1)
            hq2 (by rw [hc]; exact hv1) (by rw [hc]; exact hm1)
            (rel_binop hrel (powC T a b))
        rw [hc, hd] at hsp hrel2
        refine ⟨st2, ?_, hlen1, ?_, ?_⟩
        · simp only [evalRawGo, rawStep, pushC, if_pos hlt]
          exact hgo
        · simp only [runF, fastStep]
          rw [htop, hsec]
          exact hsp
        · simp only [runF, fastStep]
          rw [htop, hsec]
          exact hrel2
  | .Log :: rest, q, st, σ, i, hq, hv, hm, hrel => by
    simp only [stageA] at hq
    rcases Option.map_eq_some'.mp hq with ⟨q2, hq2, rfl⟩
    obtain ⟨h1, h0, hv1⟩ := validateAux_ok_inv hv
    obtain ⟨m1, hm1⟩ := rawMaxOk_cons hm
    simp only [rawDelta] at h1 hv1 m1 hm1
    cases st with
    | nil => exact absurd h1 (by norm_num)
    | cons b st1 =>
      cases st1 with
      | nil => exact absurd h1 (by norm_num)
      | cons a st0 =>
        have hc : (((logC T a / logC T b) :: st0).length : Int) =
            ((b :: a :: st0).length : Int) + (-1) := by
          simp only [List.length_cons]
          push_cast
          omega
        have hd : ((b :: a :: st0).length : Int) + (-1) =
            ((b :: a :: st0).length : Int) - 1 := by omega
        have hlt : st0.length < 32 := by
          simp only [List.length_cons] at m1
          omega
        have htop := rel_top hrel
        have hsec := rel_second hrel
        obtain ⟨st2, hgo, hlen1, hsp, hrel2⟩ :=
          stageA_sim T z rest q2 ((logC T a / logC T b) :: st0)
            (wr σ (((b :: a :: st0).length : Int) - 1) (logC T a / logC T b)) (i + 1)
            hq2 (by rw [hc]; exact hv1) (by rw [hc]; exact hm1)
            (rel_binop hrel (logC T a / logC T b))
        rw [hc, hd] at hsp hrel2
        refine ⟨st2, ?_, hlen1, ?_, ?_⟩
        · simp only [evalRawGo, rawStep, pushC, if_pos hlt]
          exact hgo
        · simp only [runF, fastStep]
          rw [htop, hsec]
          exact hsp
        · simp only [runF, fastStep]
          rw [htop, hsec]
          exact hrel2

end CNW

namespace CNW

variable {F : Type} [Field F]

theorem profOk_cons_push {f : FastMathInstr F} {q2 : List (FastMathInstr F)} {s : Int}
    (hf : shapeOf f = Shape.push) (hb : s + 1 ≤ 31) (h1 : profOk (s + 1) q2 = true)
    (h2 : finSz (s + 1) q2 = 1) :
    profOk s (f :: q2) = true ∧ finSz s (f :: q2) = 1 := by
  constructor
  · simp only [profOk, hf, Bool.and_eq_true, decide_eq_true_eq]
    exact ⟨hb, h1⟩
  · simp only [finSz, fastDelta, hf]
    exact h2

theorem profOk_cons_inplace {f : FastMathInstr F} {q2 : List (FastMathInstr F)} {s : Int}
    (hf : shapeOf f = Shape.inplace) (hs : 0 < s) (h1 : profOk s q2 = true)
    (h2 : finSz s q2 = 1) :
    profOk s (f :: q2) = true ∧ finSz s (f :: q2) = 1 := by
  constructor
  · simp only [profOk, hf, Bool.and_eq_true, decide_eq_true_eq]
    exact ⟨by omega, h1⟩
  · simp only [finSz, fastDelta, hf, add_zero]
    exact h2

theorem profOk_cons_stk {f : FastMathInstr F} {q2 : List (FastMathInstr F)} {s : Int}
    (hf : shapeOf f = Shape.stk) (hs : 0 < s + (-1)) (h1 : profOk (s + (-1)) q2 = true)
    (h2 : finSz (s + (-1)) q2 = 1) :
    profOk s (f :: q2) = true ∧ finSz s (f :: q2) = 1 := by
  have e : s + (-1 : Int) = s - 1 := by omega
  constructor
  · simp only [profOk, hf, Bool.and_eq_true, decide_eq_true_eq]
    rw [e] at h1
    exact ⟨by omega, h1⟩
  · simp only [finSz, fastDelta, hf]
    exact h2

theorem stageA_profOk (T : FloatOps F) :
    ∀ (p : List (MathInstruction F)) (q : List (FastMathInstr F)) (s : Int) (i : Nat),
      stageA T p = some q → validateAux s i p = Except.ok () → rawMaxOk s p = true →
      profOk s q = true ∧ finSz s q = 1
  | [], q, s, i, hq, hv, _ => by
    simp only [stageA, Option.some.injEq] at hq
    subst hq
    simp only [validateAux] at hv
    split at hv
    · exact absurd hv (by simp)
    · rename_i hs
      refine ⟨rfl, ?_⟩
      show s = 1
      omega
  | .Imag :: rest, q, s, i, hq, hv, hm => by
    have hnone : (none : Option (List (FastMathInstr F))) = some q := hq
    exact absurd hnone (by simp)
  | .Number x :: rest, q, s, i, hq, hv, hm => by
    have hsplit : (∃ rest2, rest = MathInstruction.Imag :: rest2) ∨
        stageA T (MathInstruction.Number x :: rest) =
          (stageA T rest).map (FastMathInstr.Number (Complex.fromReal x) :: ·) := by
      cases rest with
      | nil => exact Or.inr rfl
      | cons r rest2 =>
        cases r
        case Imag => exact Or.inl ⟨rest2, rfl⟩
        all_goals exact Or.inr rfl
    rcases hsplit with ⟨rest2, rfl⟩ | heq
    · simp only [stageA] at hq
      rcases Option.map_eq_some'.mp hq with ⟨q2, hq2, rfl⟩
      obtain ⟨h1a, h0a, hv1⟩ := validateAux_ok_inv hv
      obtain ⟨h1b, h0b, hv2⟩ := validateAux_ok_inv hv1
      obtain ⟨m1, hm1⟩ := rawMaxOk_cons hm
      obtain ⟨m2, hm2⟩ := rawMaxOk_cons hm1
      simp only [rawDelta, add_zero] at hv2 m1 hm2
      obtain ⟨ih1, ih2⟩ := stageA_profOk T rest2 q2 (s + 1) (i + 1 + 1) hq2 hv2 hm2
      exact profOk_cons_push rfl m1 ih1 ih2
    · rw [heq] at hq
      rcases Option.map_eq_some'.mp hq with ⟨q2, hq2, rfl⟩
      obtain ⟨h1, h0, hv1⟩ := validateAux_ok_inv hv
      obtain ⟨m1, hm1⟩ := rawMaxOk_cons hm
      simp only [rawDelta] at hv1 m1 hm1
      obtain ⟨ih1, ih2⟩ := stageA_profOk T rest q2 (s + 1) (i + 1) hq2 hv1 hm1
      exact profOk_cons_push rfl m1 ih1 ih2
  | .Z :: rest, q, s, i, hq, hv, hm => by
    simp only [stageA] at hq
    rcases Option.map_eq_some'.mp hq with ⟨q2, hq2, rfl⟩
    obtain ⟨h1, h0, hv1⟩ := validateAux_ok_inv hv
    obtain ⟨m1, hm1⟩ := rawMaxOk_cons hm
    simp only [rawDelta] at hv1 m1 hm1
    obtain ⟨ih1, ih2⟩ := stageA_profOk T rest q2 (s + 1) (i + 1) hq2 hv1 hm1
    exact profOk_cons_push rfl m1 ih1 ih2
  | .ZConj :: rest, q, s, i, hq, hv, hm => by
    simp only [stageA] at hq
    rcases Option.map_eq_some'.mp hq with ⟨q2, hq2, rfl⟩
    obtain ⟨h1, h0, hv1⟩ := validateAux_ok_inv hv
    obtain ⟨m1, hm1⟩ := rawMaxOk_cons hm
    simp only [rawDelta] at hv1 m1 hm1
    obtain ⟨ih1, ih2⟩ := stageA_profOk T rest q2 (s + 1) (i + 1) hq2 hv1 hm1
    exact profOk_cons_push rfl m1 ih1 ih2
  | .Pi :: rest, q, s, i, hq, hv, hm => by
    simp only [stageA] at hq
    rcases Option.map_eq_some'.mp hq with ⟨q2, hq2, rfl⟩
    obtain ⟨h1, h0, hv1⟩ := validateAux_ok_inv hv
    obtain ⟨m1, hm1⟩ := rawMaxOk_cons hm
    simp only [rawDelta] at hv1 m1 hm1
    obtain ⟨ih1, ih2⟩ := stageA_profOk T rest q2 (s + 1) (i + 1) hq2 hv1 hm1
    exact profOk_cons_push rfl m1 ih1 ih2
  | .E :: rest, q, s, i, hq, hv, hm => by
    simp only [stageA] at hq
    rcases Option.map_eq_some'.mp hq with ⟨q2, hq2, rfl⟩
    obtain ⟨h1, h0, hv1⟩ := validateAux_ok_inv hv
    obtain ⟨m1, hm1⟩ := rawMaxOk_cons hm
    simp only [rawDelta] at hv1 m1 hm1
    obtain ⟨ih1, ih2⟩ := stageA_profOk T rest q2 (s + 1) (i + 1) hq2 hv1 hm1
    exact profOk_cons_push rfl m1 ih1 ih2
  | .Conj :: rest, q, s, i, hq, hv, hm => by
    simp only [stageA] at hq
    rcases Option.map_eq_some'.mp hq with ⟨q2, hq2, rfl⟩
    obtain ⟨h1, h0, hv1⟩ := validateAux_ok_inv hv
    obtain ⟨m1, hm1⟩ := rawMaxOk_cons hm
    simp only [rawDelta, add_zero] at hv1 m1 hm1
    obtain ⟨ih1, ih2⟩ := stageA_profOk T rest q2 s (i + 1) hq2 hv1 hm1
    exact profOk_cons_inplace rfl (h0 (by norm_num [rawDelta])) ih1 ih2
  | .Sqrt :: rest, q, s, i, hq, hv, hm => by
    simp only [stageA] at hq
    rcases Option.map_eq_some'.mp hq with ⟨q2, hq2, rfl⟩
    obtain ⟨h1, h0, hv1⟩ := validateAux_ok_inv hv
    obtain ⟨m1, hm1⟩ := rawMaxOk_cons hm
    simp only [rawDelta, add_zero] at hv1 m1 hm1
    obtain ⟨ih1, ih2⟩ := stageA_profOk T rest q2 s (i + 1) hq2 hv1 hm1
    exact profOk_cons_inplace rfl (h0 (by norm_num [rawDelta])) ih1 ih2
  | .Exp :: rest, q, s, i, hq, hv, hm => by
    simp only [stageA] at hq
    rcases Option.map_eq_some'.mp hq with ⟨q2, hq2, rfl⟩
    obtain ⟨h1, h0, hv1⟩ := validateAux_ok_inv hv
    obtain ⟨m1, hm1⟩ := rawMaxOk_cons hm
    simp only [rawDelta, add_zero] at hv1 m1 hm1
    obtain ⟨ih1, ih2⟩ := stageA_profOk T rest q2 s (i + 1) hq2 hv1 hm1
    exact profOk_cons_inplace rfl (h0 (by norm_num [rawDelta])) ih1 ih2
  | .Ln :: rest, q, s, i, hq, hv, hm => by
    simp only [stageA] at hq
    rcases Option.map_eq_some'.mp hq with ⟨q2, hq2, rfl⟩
    obtain ⟨h1, h0, hv1⟩ := validateAux_ok_inv hv
    obtain ⟨m1, hm1⟩ := rawMaxOk_cons hm
    simp only [rawDelta, add_zero] at hv1 m1 hm1
    obtain ⟨ih1, ih2⟩ := stageA_profOk T rest q2 s (i + 1) hq2 hv1 hm1
    exact profOk_cons_inplace rfl (h0 (by norm_num [rawDelta])) ih1 ih2
  | .Sin :: rest, q, s, i, hq, hv, hm => by
    simp only [stageA] at hq
    rcases Option.map_eq_some'.mp hq with ⟨q2, hq2, rfl⟩
    obtain ⟨h1, h0, hv1⟩ := validateAux_ok_inv hv
    obtain ⟨m1, hm1⟩ := rawMaxOk_cons hm
    simp only [rawDelta, add_zero] at hv1 m1 hm1
    obtain ⟨ih1, ih2⟩ := stageA_profOk T rest q2 s (i + 1) hq2 hv1 hm1
    exact profOk_cons_inplace rfl (h0 (by norm_num [rawDelta])) ih1 ih2
  | .Cos :: rest, q, s, i, hq, hv, hm => by
    simp only [stageA] at hq
    rcases Option.map_eq_some'.mp hq with ⟨q2, hq2, rfl⟩
    obtain ⟨h1, h0, hv1⟩ := validateAux_ok_inv hv
    obtain ⟨m1, hm1⟩ := rawMaxOk_cons hm
    simp only [rawDelta, add_zero] at hv1 m1 hm1
    obtain ⟨ih1, ih2⟩ := stageA_profOk T rest q2 s (i + 1) hq2 hv1 hm1
    exact profOk_cons_inplace rfl (h0 (by norm_num [rawDelta])) ih1 ih2
  | .Tan :: rest, q, s, i, hq, hv, hm => by
    simp only [stageA] at hq
    rcases Option.map_eq_some'.mp hq with ⟨q2, hq2, rfl⟩
    obtain ⟨h1, h0, hv1⟩ := validateAux_ok_inv hv
    obtain ⟨m1, hm1⟩ := rawMaxOk_cons hm
    simp only [rawDelta, add_zero] at hv1 m1 hm1
    obtain ⟨ih1, ih2⟩ := stageA_profOk T rest q2 s (i + 1) hq2 hv1 hm1
    exact profOk_cons_inplace rfl (h0 (by norm_num [rawDelta])) ih1 ih2
  | .Arcsin :: rest, q, s, i, hq, hv, hm => by
    simp only [stageA] at hq
    rcases Option.map_eq_some'.mp hq with ⟨q2, hq2, rfl⟩
    obtain ⟨h1, h0, hv1⟩ := validateAux_ok_inv hv
    obtain ⟨m1, hm1⟩ := rawMaxOk_cons hm
    simp only [rawDelta, add_zero] at hv1 m1 hm1
    obtain ⟨ih1, ih2⟩ := stageA_profOk T rest q2 s (i + 1) hq2 hv1 hm1
    exact profOk_cons_inplace rfl (h0 (by norm_num [rawDelta])) ih1 ih2
  | .Arccos :: rest, q, s, i, hq, hv, hm => by
    simp only [stageA] at hq
    rcases Option.map_eq_some'.mp hq with ⟨q2, hq2, rfl⟩
    obtain ⟨h1, h0, hv1⟩ := validateAux_ok_inv hv
    obtain ⟨m1, hm1⟩ := rawMaxOk_cons hm
    simp only [rawDelta, add_zero] at hv1 m1 hm1
    obtain ⟨ih1, ih2⟩ := stageA_profOk T rest q2 s (i + 1) hq2 hv1 hm1
    exact profOk_cons_inplace rfl (h0 (by norm_num [rawDelta])) ih1 ih2
  | .Arctan :: rest, q, s, i, hq, hv, hm => by
    simp only [stageA] at hq
    rcases Option.map_eq_some'.mp hq with ⟨q2, hq2, rfl⟩
    obtain ⟨h1, h0, hv1⟩ := validateAux_ok_inv hv
    obtain ⟨m1, hm1⟩ := rawMaxOk_cons hm
    simp only [rawDelta, add_zero] at hv1 m1 hm1
    obtain ⟨ih1, ih2⟩ := stageA_profOk T rest q2 s (i + 1) hq2 hv1 hm1
    exact profOk_cons_inplace rfl (h0 (by norm_num [rawDelta])) ih1 ih2
  | .Add :: rest, q, s, i, hq, hv, hm => by
    simp only [stageA] at hq
    rcases Option.map_eq_some'.mp hq with ⟨q2, hq2, rfl⟩
    obtain ⟨h1, h0, hv1⟩ := validateAux_ok_inv hv
    obtain ⟨m1, hm1⟩ := rawMaxOk_cons hm
    simp only [rawDelta] at h1 hv1 m1 hm1
    obtain ⟨ih1, ih2⟩ := stageA_profOk T rest q2 (s + (-1)) (i + 1) hq2 hv1 hm1
    exact profOk_cons_stk rfl h1 ih1 ih2
  | .Sub :: rest, q, s, i, hq, hv, hm => by
    simp only [stageA] at hq
    rcases Option.map_eq_some'.mp hq with ⟨q2, hq2, rfl⟩
    obtain ⟨h1, h0, hv1⟩ := validateAux_ok_inv hv
    obtain ⟨m1, hm1⟩ := rawMaxOk_cons hm
    simp only [rawDelta] at h1 hv1 m1 hm1
    obtain ⟨ih1, ih2⟩ := stageA_profOk T rest q2 (s + (-1)) (i + 1) hq2 hv1 hm1
    exact profOk_cons_stk rfl h1 ih1 ih2
  | .Mul :: rest, q, s, i, hq, hv, hm => by
    simp only [stageA] at hq
    rcases Option.map_eq_some'.mp hq with ⟨q2, hq2, rfl⟩
    obtain ⟨h1, h0, hv1⟩ := validateAux_ok_inv hv
    obtain ⟨m1, hm1⟩ := rawMaxOk_cons hm
    simp only [rawDelta] at h1 hv1 m1 hm1
    obtain ⟨ih1, ih2⟩ := stageA_profOk T rest q2 (s + (-1)) (i + 1) hq2 hv1 hm1
    exact profOk_cons_stk rfl h1 ih1 ih2
  | .Div :: rest, q, s, i, hq, hv, hm => by
    simp only [stageA] at hq
    rcases Option.map_eq_some'.mp hq with ⟨q2, hq2, rfl⟩
    obtain ⟨h1, h0, hv1⟩ := validateAux_ok_inv hv
    obtain ⟨m1, hm1⟩ := rawMaxOk_cons hm
    simp only [rawDelta] at h1 hv1 m1 hm1
    obtain ⟨ih1, ih2⟩ := stageA_profOk T rest q2 (s + (-1)) (i + 1) hq2 hv1 hm1
    exact profOk_cons_stk rfl h1 ih1 ih2
  | .Pow :: rest, q, s, i, hq, hv, hm => by
    simp only [stageA] at hq
    rcases Option.map_eq_some'.mp hq with ⟨q2, hq2, rfl⟩
    obtain ⟨h1, h0, hv1⟩ := validateAux_ok_inv hv
    obtain ⟨m1, hm1⟩ := rawMaxOk_cons hm
    simp only [rawDelta] at h1 hv1 m1 hm1
    obtain ⟨ih1, ih2⟩ := stageA_profOk T rest q2 (s + (-1)) (i + 1) hq2 hv1 hm1
    exact profOk_cons_stk rfl h1 ih1 ih2
  | .Log :: rest, q, s, i, hq, hv, hm => by
    simp only [stageA] at hq
    rcases Option.map_eq_some'.mp hq with ⟨q2, hq2, rfl⟩
    obtain ⟨h1, h0, hv1⟩ := validateAux_ok_inv hv
    obtain ⟨m1, hm1⟩ := rawMaxOk_cons hm
    simp only [rawDelta] at h1 hv1 m1 hm1
    obtain ⟨ih1, ih2⟩ := stageA_profOk T rest q2 (s + (-1)) (i + 1) hq2 hv1 hm1
    exact profOk_cons_stk rfl h1 ih1 ih2

theorem profOk_fastAcc : ∀ (l : List (FastMathInstr F)) (sp : Int), 0 ≤ sp → sp ≤ 31 →
    profOk sp l = true → fastAcc sp l = true
  | [], _, _, _, _ => rfl
  | i :: rest, sp, h0, h31, h => by
    cases hs : shapeOf i with
    | push =>
      simp only [profOk, hs, Bool.and_eq_true, decide_eq_true_eq] at h
      simp only [fastAcc, hs, Bool.and_eq_true]
      refine ⟨by simp only [inb, decide_eq_true_eq]; omega, ?_⟩
      exact profOk_fastAcc rest (sp + 1) (by omega) (by omega) h.2
    | inplace =>
      simp only [profOk, hs, Bool.and_eq_true, decide_eq_true_eq] at h
      simp only [fastAcc, hs, Bool.and_eq_true]
      refine ⟨by simp only [inb, decide_eq_true_eq]; omega, ?_⟩
      exact profOk_fastAcc rest sp h0 h31 h.2
    | stk =>
      simp only [profOk, hs, Bool.and_eq_true, decide_eq_true_eq] at h
      simp only [fastAcc, hs, Bool.and_eq_true]
      refine ⟨⟨by simp only [inb, decide_eq_true_eq]; omega,
        by simp only [inb, decide_eq_true_eq]; omega⟩, ?_⟩
      exact profOk_fastAcc rest (sp - 1) (by omega) (by omega) h.2

theorem compile_profOk (T : FloatOps F) {p : List (MathInstruction F)}
    {fp : List (FastMathInstr F)} (hv : validate p = Except.ok ())
    (hm : rawMaxOk 0 p = true) (hc : compile T p = some fp) :
    profOk 0 fp = true ∧ finSz 0 fp = 1 := by
  rw [compile] at hc
  rcases Option.map_eq_some'.mp hc with ⟨q, hq, rfl⟩
  obtain ⟨p1, f1⟩ := stageA_profOk T p q 0 0 hq hv hm
  obtain ⟨p2, f2⟩ := loopGo_profOk T (q.length + 1) q 0 p1
  have hsb : stageB T q = loopGo T (q.length + 1) q := rfl
  constructor
  · rw [(specialize_profOk T (stageB T q) 0).1, hsb]
    exact p2
  · rw [(specialize_profOk T (stageB T q) 0).2, hsb, f2, f1]

end CNW

namespace CNW

variable {F : Type} [Field F]

theorem firstDropFrom_lt : ∀ (l : List (MathInstruction F)) (s : Int) (k : Nat),
    firstDropFrom s l = some k → k < l.length
  | [], _, _, h => by simp [firstDropFrom] at h
  | i :: rest, s, k, h => by
    simp only [firstDropFrom] at h
    split at h
    · simp only [Option.some.injEq] at h
      subst h
      simp
    · rcases Option.map_eq_some'.mp h with ⟨k2, hk2, rfl⟩
      have := firstDropFrom_lt rest _ k2 hk2
      simp only [List.length_cons]
      omega

theorem validateAux_cons_eq {instr : MathInstruction F} {rest : List (MathInstruction F)}
    {s : Int} {i : Nat} :
    validateAux s i (instr :: rest) =
      if s + rawDelta instr ≤ 0 then Except.error i
      else validateAux (s + rawDelta instr) (i + 1) rest := by
  cases instr <;>
    first
    | rfl
    | (simp only [validateAux, rawDelta]
       by_cases hs : s > 0
       · rw [if_pos hs]
         change (if s ≤ 0 then Except.error i else validateAux s (i + 1) rest) = _
         rw [if_neg (show ¬ s ≤ 0 from by omega),
           if_neg (show ¬ s + 0 ≤ 0 from by omega), add_zero]
       · rw [if_neg hs]
         change Except.error i = _
         rw [if_pos (show s + 0 ≤ 0 from by omega)])

theorem rawTotal_cons (instr : MathInstruction F) (rest : List (MathInstruction F)) :
    rawTotal (instr :: rest) = rawDelta instr + rawTotal rest := by
  simp [rawTotal]

theorem validateAux_char : ∀ (l : List (MathInstruction F)) (s : Int) (i : Nat),
    validateAux s i l =
      match firstDropFrom s l with
      | some k => Except.error (i + k)
      | none => if s + rawTotal l = 1 then Except.ok () else Except.error usizeMax
  | [], s, i => by
    by_cases h : s = 1 <;>
      simp [validateAux, firstDropFrom, rawTotal, h]
  | instr :: rest, s, i => by
    rw [validateAux_cons_eq]
    simp only [firstDropFrom, rawTotal_cons]
    by_cases hle : s + rawDelta instr ≤ 0
    · rw [if_pos hle, if_pos hle]
      simp
    · rw [if_neg hle, if_neg hle, validateAux_char rest (s + rawDelta instr) (i + 1)]
      cases hfd : firstDropFrom (s + rawDelta instr) rest with
      | some k =>
        simp only [hfd, Option.map_some']
        congr 1
        omega
      | none =>
        simp only [hfd, Option.map_none']
        have e : s + rawDelta instr + rawTotal rest = s + (rawDelta instr + rawTotal rest) := by
          ring
        rw [e]

end CNW

namespace CNW

variable {F : Type} [Field F]

theorem stageBFuel_some (T : FloatOps F) : ∀ (n : Nat) (l : List (FastMathInstr F)),
    l.length < n → stageBFuel T n l = some (loopGo T n l)
  | 0, _, h => absurd h (by omega)
  | n + 1, l, h => by
    simp only [stageBFuel, loopGo]
    by_cases hlt : (precompute T (fuse T l)).length < l.length
    · rw [if_pos hlt, if_pos hlt]
      exact stageBFuel_some T n _ (by omega)
    · rw [if_neg hlt, if_neg hlt]

/-- C1 (amended). For every program accepted by validate whose running
stack size never exceeds 31, the compiled FastFunction only touches fast
stack indices inside [0, 32), for any input (the touched indices are
determined by the instruction shapes alone). The claim as stated, without
the depth bound, is refuted by the counterexample below: validate imposes
no upper bound, and a validated program whose compiled form still reaches
depth 32 makes the pre-incremented pointer touch index 32. -/
theorem validated_depth_bounded_fast_accesses_in_bounds (T : FloatOps F)
    (p : List (MathInstruction F)) (fp : List (FastMathInstr F))
    (hv : validate p = Except.ok ()) (hm : rawMaxOk 0 p = true)
    (hc : compile T p = some fp) : fastAccAll fp = true := by
  obtain ⟨p1, _⟩ := compile_profOk T hv hm hc
  rw [fastAccAll, Bool.and_eq_true]
  exact ⟨profOk_fastAcc fp 0 le_rfl (by omega) p1, rfl⟩

/-- Witness for C1: the one-instruction program Z validates, stays under
the depth bound, compiles, and its fast accesses are in bounds. -/
theorem validated_depth_bounded_fast_accesses_witness :
    (validate [MathInstruction.Z (F := ZMod 101)] = Except.ok () ∧
      rawMaxOk 0 [MathInstruction.Z (F := ZMod 101)] = true ∧
      compile zOps [MathInstruction.Z] = some [FastMathInstr.Z]) ∧
      fastAccAll [FastMathInstr.Z (F := ZMod 101)] = true :=
  ⟨⟨rfl, rfl, rfl⟩,
    validated_depth_bounded_fast_accesses_in_bounds zOps [MathInstruction.Z]
      [FastMathInstr.Z] rfl rfl rfl⟩

/-- Counterexample to C1 as stated: thirty-three pushes followed by
thirty-two multiplications pass validate, compile fine, and the fast
interpreter touches index 32, outside the 32-slot array. -/
theorem validated_deep_program_fast_access_out_of_bounds :
    validate progDeep33 = Except.ok () ∧
      (compile zOps progDeep33).map fastAccAll = some false :=
  ⟨rfl, by decide⟩

/-- C2 (code bug). validate accepts the program Z, Imag, in which the
imaginary marker follows the input producer rather than a literal, but
stage A of the compiler reaches its unreachable arm on the bare Imag and
panics (modelled by none), contradicting the totality of compilation
after a successful validation stated by the specification. -/
theorem bare_imag_validates_but_compile_panics :
    validate [MathInstruction.Z, MathInstruction.Imag (F := ZMod 101)] = Except.ok () ∧
      compile zOps [MathInstruction.Z, MathInstruction.Imag] = none :=
  ⟨rfl, rfl⟩

/-- C3 (amended). For every program accepted by validate whose running
stack size never exceeds 31 and every input z, the fast interpreter stays
inside the 32-slot array and the compiled FastFunction computes exactly
the value of the raw interpreter. Arithmetic is the exact field model, so
agreement is exact equality; the comparison primitive of the model is
assumed faithful. Without the depth bound the claim fails: the
counterexample below exhibits a validated program the raw interpreter
evaluates fine while the fast interpreter runs off the 32-slot array. -/
theorem raw_and_compiled_eval_agree (T : FloatOps F)
    (hbeq : ∀ a b : F, T.beq a b = true → a = b)
    (p : List (MathInstruction F)) (fp : List (FastMathInstr F)) (z : Complex F)
    (hv : validate p = Except.ok ()) (hm : rawMaxOk 0 p = true)
    (hc : compile T p = some fp) :
    fastAccAll fp = true ∧ evalRaw T p z = some (evalFast T fp z) := by
  constructor
  · obtain ⟨p1, _⟩ := compile_profOk T hv hm hc
    rw [fastAccAll, Bool.and_eq_true]
    exact ⟨profOk_fastAcc fp 0 le_rfl (by omega) p1, rfl⟩
  · rw [compile] at hc
    rcases Option.map_eq_some'.mp hc with ⟨q, hq, rfl⟩
    obtain ⟨st2, hgo, hlen1, hsp, hrel2⟩ :=
      stageA_sim T z p q [] initStore 0 hq hv hm (rel_nil _)
    obtain ⟨c, rfl⟩ : ∃ c, st2 = [c] := by
      cases st2 with
      | nil => simp at hlen1
      | cons c tl =>
        cases tl with
        | nil => exact ⟨c, rfl⟩
        | cons d tl2 => simp at hlen1
    have hraw : evalRaw T p z = some c := by
      rw [evalRaw, hgo]
    have hval : (runF T z q (initStore, (0 : Int))).1 1 = c := by
      have h := rel_top hrel2
      simpa using h
    suffices hfast : evalFast T (specialize T (stageB T q)) z = c by
      rw [hraw, hfast]
    rw [evalFast, specialize_runF T z hbeq]
    obtain ⟨s1, a1⟩ := loopGo_sem T z (q.length + 1) q
      (agreeLE_refl 0 (initStore (F := F)))
    have hsp0 : (runF T z q (initStore, (0 : Int))).2 = 1 := hsp
    have h1le : (1 : Int) ≤ (runF T z q (initStore, (0 : Int))).2 := by omega
    have h2 := a1 1 h1le
    rw [show stageB T q = loopGo T (q.length + 1) q from rfl, ← h2]
    exact hval

/-- Witness for C3: the program Z, 5, + compiles to Z, AddR 5 and both
interpreters send 2 + 3i to 7 + 3i. -/
theorem raw_and_compiled_eval_agree_witness :
    (validate [MathInstruction.Z, MathInstruction.Number (5 : ZMod 101),
        MathInstruction.Add] = Except.ok () ∧
      rawMaxOk 0 [MathInstruction.Z, MathInstruction.Number (5 : ZMod 101),
        MathInstruction.Add] = true ∧
      compile zOps [MathInstruction.Z, MathInstruction.Number 5, MathInstruction.Add] =
        some [FastMathInstr.Z, FastMathInstr.AddR 5]) ∧
      evalRaw zOps [MathInstruction.Z, MathInstruction.Number 5, MathInstruction.Add]
          ⟨2, 3⟩ =
        some (evalFast zOps [FastMathInstr.Z, FastMathInstr.AddR 5] ⟨2, 3⟩) :=
  ⟨⟨rfl, rfl, by decide⟩,
    (raw_and_compiled_eval_agree zOps (fun _ _ h => of_decide_eq_true h)
      [MathInstruction.Z, MathInstruction.Number 5, MathInstruction.Add]
      [FastMathInstr.Z, FastMathInstr.AddR 5] ⟨2, 3⟩ rfl rfl (by decide)).2⟩

/-- Counterexample to C3 as stated: a validated program of depth exactly
32 (the conjugations block all fusions) is evaluated fine by the raw
interpreter, but the fast interpreter touches index 32, off the array, so
the Rust fast evaluation panics instead of producing the raw result. -/
theorem raw_succeeds_but_fast_out_of_bounds :
    validate progDeep32 = Except.ok () ∧
      evalRaw zOps progDeep32 ⟨1, 0⟩ = some ⟨1, 0⟩ ∧
      (compile zOps progDeep32).map fastAccAll = some false :=
  ⟨rfl, by decide, by decide⟩

/-- C5. The program 1, 2, + constant-folds at compile time: the compiled
FastFunction is the single literal instruction 3 + 0i, of length one. -/
theorem literal_addition_constant_folds (T : FloatOps F) :
    compile T [MathInstruction.Number 1, MathInstruction.Number 2,
        MathInstruction.Add] = some [FastMathInstr.Number ⟨3, 0⟩] ∧
      (compile T [MathInstruction.Number 1, MathInstruction.Number 2,
        MathInstruction.Add]).map List.length = some 1 := by
  have hrfl : compile T [MathInstruction.Number 1, MathInstruction.Number 2,
      MathInstruction.Add] =
      some [FastMathInstr.Number (Complex.fromReal 1 + Complex.fromReal 2)] := rfl
  have hval : Complex.fromReal (1 : F) + Complex.fromReal 2 = (⟨3, 0⟩ : Complex F) := by
    apply Complex.ext2 <;> simp [Complex.fromReal, add_def] <;> norm_num
  rw [hrfl, hval]
  exact ⟨rfl, rfl⟩

/-- C6 (amended). validate on the program 1, / reports the error at index
1, the index of the division at which the running stack size drops to
zero, not the end-of-program sentinel. -/
theorem incomplete_div_error_index_one :
    validate [MathInstruction.Number (1 : ZMod 101), MathInstruction.Div] =
      Except.error 1 := rfl

/-- Counterexample to C6 as stated: the reported index 1 is a concrete
instruction index and differs from the usize::MAX sentinel. -/
theorem incomplete_div_reports_div_index_not_sentinel :
    validate [MathInstruction.Number (1 : ZMod 101), MathInstruction.Div] =
        Except.error 1 ∧
      (1 : Nat) ≠ usizeMax :=
  ⟨rfl, by decide⟩

/-- C7. The validator is a single forward scan: it errors with the index
of the first instruction at which the running stack size drops to zero or
below; if no such instruction exists it succeeds exactly when the final
size is one and otherwise errors with the usize::MAX sentinel, which is
distinct from every real instruction index (programs hold at most 255
instructions, so indices stay at most 254). -/
theorem validator_error_characterization (p : List (MathInstruction F)) :
    (validate p =
      match firstDropFrom 0 p with
      | some k => Except.error k
      | none => if rawTotal p = 1 then Except.ok () else Except.error usizeMax) ∧
    (∀ k, firstDropFrom 0 p = some k → k < p.length) ∧
    (p.length ≤ 255 → ∀ j, j < p.length → j ≠ usizeMax) := by
  refine ⟨?_, fun k h => firstDropFrom_lt p 0 k h, fun hlen j hj heq => ?_⟩
  · have h := validateAux_char p 0 0
    rw [validate, h]
    cases firstDropFrom 0 p with
    | some k => simp
    | none => simp
  · subst heq
    simp only [usizeMax] at hj
    omega

/-- Witness for C7: on the single-instruction program consisting of one
Add, the characterization yields the error at index 0, and index 0 is not
the sentinel. -/
theorem validator_error_characterization_witness :
    validate [MathInstruction.Add (F := ZMod 101)] = Except.error 0 ∧
      (0 : Nat) ≠ usizeMax := by
  have h := validator_error_characterization (F := ZMod 101) [MathInstruction.Add]
  exact ⟨by rw [h.1]; rfl, h.2.2 (by decide) 0 (by decide)⟩

/-- C8. The fixpoint loop of the compiler always exits within length + 1
iterations: running it with that explicit budget never exhausts the
budget and returns the loop result, because each of the two passes never
lengthens the program and the loop stops as soon as a full repetition
produces no reduction. -/
theorem compile_fixpoint_terminates_within_length_bound (T : FloatOps F)
    (l : List (FastMathInstr F)) :
    stageBFuel T (l.length + 1) l = some (stageB T l) ∧
      (fuse T l).length ≤ l.length ∧ (precompute T l).length ≤ l.length :=
  ⟨stageBFuel_some T (l.length + 1) l (by omega),
    peephole_length (fusePair T) l, peephole_length (foldPair T) l⟩

/-- C10. In the raw interpreter the Imag instruction multiplies the
current top of stack by the imaginary unit, whatever produced that value:
evaluating Z, Imag returns i times the input, and on any stack with top c
the Imag step replaces c by i times c. -/
theorem imag_multiplies_any_top_by_i (T : FloatOps F) (z c : Complex F)
    (st : List (Complex F)) (h : st.length < 32) :
    evalRaw T [MathInstruction.Z, MathInstruction.Imag] z =
        some (Complex.I * z) ∧
      rawStep T z (c :: st) MathInstruction.Imag =
        some ((Complex.I * c) :: st) := by
  constructor
  · have h1 : evalRawGo T z [] [MathInstruction.Z, MathInstruction.Imag] =
        some [z * Complex.fromImag 1] := rfl
    rw [evalRaw, h1, mul_imag_one]
  · have h2 : rawStep T z (c :: st) MathInstruction.Imag =
        pushC st (c * Complex.fromImag 1) := rfl
    rw [h2, pushC, if_pos h, mul_imag_one]

/-- Witness for C10 at a concrete input and a concrete nonempty stack. -/
theorem imag_multiplies_any_top_by_i_witness :
    ([] : List (Complex (ZMod 101))).length < 32 ∧
      (evalRaw zOps [MathInstruction.Z, MathInstruction.Imag] ⟨2, 3⟩ =
          some (Complex.I * ⟨2, 3⟩) ∧
        rawStep zOps ⟨2, 3⟩ [⟨4, 5⟩] MathInstruction.Imag =
          some [Complex.I * ⟨4, 5⟩]) :=
  ⟨by decide, imag_multiplies_any_top_by_i zOps ⟨2, 3⟩ ⟨4, 5⟩ [] (by decide)⟩

/-- Counterexample to C4 as stated: the program Z, 2, ^ does not compile
to a single fused instruction; the compiled FastFunction has length two. -/
theorem square_program_compiles_to_two_instructions_cex :
    (compile zOps [MathInstruction.Z, MathInstruction.Number 2,
        MathInstruction.Pow]).map List.length = some 2 ∧
      ¬ (compile zOps [MathInstruction.Z, MathInstruction.Number 2,
        MathInstruction.Pow]).map List.length = some 1 :=
  ⟨by decide, by decide⟩

end CNW

/-- C4 (amended). The program Z, 2, ^ compiles to the two-instruction
FastFunction push-input followed by power-with-real-immediate-operand 2
(there is no single square instruction in the fast repertoire), and in the
idealized real model evaluating it at i gives exactly -1 + 0i. -/
theorem square_program_push_then_powr :
    CNW.compile realOps [CNW.MathInstruction.Z, CNW.MathInstruction.Number 2,
        CNW.MathInstruction.Pow] =
      some [CNW.FastMathInstr.Z, CNW.FastMathInstr.PowR 2] ∧
      CNW.evalFast realOps [CNW.FastMathInstr.Z, CNW.FastMathInstr.PowR 2] ⟨0, 1⟩ =
        ⟨-1, 0⟩ := by
  constructor
  · have h1 : CNW.compile realOps [CNW.MathInstruction.Z, CNW.MathInstruction.Number 2,
        CNW.MathInstruction.Pow] =
        some (CNW.specialize realOps [CNW.FastMathInstr.Z,
          CNW.FastMathInstr.Pow (CNW.Complex.fromReal 2)]) := rfl
    have h2 : CNW.isReal realOps (CNW.Complex.fromReal (2 : ℝ)) = true :=
      decide_eq_true rfl
    rw [h1]
    simp only [CNW.specialize, List.map_cons, List.map_nil, CNW.spec1]
    rw [if_pos h2]
    rfl
  · have h3 : CNW.evalFast realOps [CNW.FastMathInstr.Z, CNW.FastMathInstr.PowR 2]
        ⟨0, 1⟩ = CNW.powF realOps ⟨0, 1⟩ 2 := by
      rw [CNW.evalFast]
      simp only [CNW.runF, CNW.fastStep]
      rw [show ((0 : Int) + 1) = 1 from rfl]
      rw [CNW.wr_same, CNW.wr_same]
    rw [h3]
    have harg : CNW.argument realOps (⟨0, 1⟩ : CNW.Complex ℝ) = Real.pi / 2 := by
      show Complex.arg ⟨0, 1⟩ = Real.pi / 2
      rw [show (⟨0, 1⟩ : Complex) = Complex.I from rfl]
      exact Complex.arg_I
    have hmod : CNW.modulus realOps (⟨0, 1⟩ : CNW.Complex ℝ) = 1 := by
      show Real.sqrt (0 * 0 + 1 * 1) = 1
      norm_num
    have hlog : CNW.logC realOps (⟨0, 1⟩ : CNW.Complex ℝ) = ⟨0, Real.pi / 2⟩ := by
      rw [CNW.logC, hmod, harg]
      show (⟨Real.log 1, Real.pi / 2⟩ : CNW.Complex ℝ) = ⟨0, Real.pi / 2⟩
      rw [Real.log_one]
    rw [CNW.powF, hlog]
    have hmul : CNW.mulF (⟨0, Real.pi / 2⟩ : CNW.Complex ℝ) 2 = ⟨0, Real.pi⟩ := by
      apply CNW.Complex.ext2 <;> simp [CNW.mulF] <;> ring
    rw [hmul]
    show (⟨Real.cos Real.pi * Real.exp 0, Real.sin Real.pi * Real.exp 0⟩ :
        CNW.Complex ℝ) = ⟨-1, 0⟩
    rw [Real.cos_pi, Real.sin_pi, Real.exp_zero]
    norm_num

/-- C9. The log operation on a plain real number, not already a Complex,
returns real part ln of the absolute value and imaginary part exactly pi
when the argument is negative, and imaginary part 0 when the argument is
non-negative. -/
theorem flog_negative_real_gets_pi_imaginary (x : ℝ) :
    (x < 0 → CNW.fLog realOps x = ⟨Real.log |x|, Real.pi⟩) ∧
    (0 ≤ x → CNW.fLog realOps x = ⟨Real.log |x|, 0⟩) := by
  constructor
  · intro hx
    show (⟨realOps.logf (realOps.fabsf x), if realOps.blt x 0 then realOps.pi else 0⟩ :
        CNW.Complex ℝ) = _
    rw [if_pos (show realOps.blt x 0 = true from decide_eq_true hx)]
    rfl
  · intro hx
    show (⟨realOps.logf (realOps.fabsf x), if realOps.blt x 0 then realOps.pi else 0⟩ :
        CNW.Complex ℝ) = _
    rw [if_neg (show ¬ realOps.blt x 0 = true from by
      show ¬ (@decide (x < 0) (Classical.propDecidable _)) = true
      rw [decide_eq_true_eq]
      exact not_lt.2 hx)]
    rfl

/-- Witness for C9 at the inputs -2 and 2. -/
theorem flog_negative_real_gets_pi_imaginary_witness :
    CNW.fLog realOps (-2 : ℝ) = ⟨Real.log |(-2 : ℝ)|, Real.pi⟩ ∧
      CNW.fLog realOps (2 : ℝ) = ⟨Real.log |(2 : ℝ)|, 0⟩ :=
  ⟨(flog_negative_real_gets_pi_imaginary (-2)).1 (by norm_num),
    (flog_negative_real_gets_pi_imaginary 2).2 (by norm_num)⟩
